import Mathlib

/-! go-hyphenator: a shallow embedding of `hyphenator.go`

Go strings that hold well-formed UTF-8 are modelled by their sequence of code
points (`Str`); `len(s)` of such a string is its UTF-8 byte length (`byteLen`).
A run-time panic of the Go program (slice or index out of range, nil
dereference, write to a nil map) is the value `none`.

The pattern trie (`github.com/AlanQuatermain/go-trie`) is a separate package:
its operations are a parameter (`TrieOps`). The two scanners (Go package
`scanner`) are modelled at the level of the tokens that `Scan` returns.
-/

namespace GoHyphenator

/-- A Go string holding well-formed UTF-8, as its code points. -/
abbrev Str := List Char

/-- Go `len(s)`: the number of bytes of the UTF-8 encoding. -/
def byteLen (s : Str) : Nat :=
  (s.map (fun c => c.utf8Size)).sum

/-- The result of `h.patterns.AllSubstringsAndValues(t)`: the two parallel
vectors `strs` and `values`, as a list of pairs `(strs.At(i), values.At(i))`. -/
abbrev Matches := List (Str × List Int)

/-- The inner loop of `hyphenateWord` (lines 138-142) on the slice `vs`:
`for i := 0; i < val.Len(); i++ { if val.At(i) > vs[i] { vs[i] = val.At(i) } }`.
`none` is the index-out-of-range panic of `vs[i]`. -/
def maxInto : List Int → List Int → Option (List Int)
  | vs, [] => some vs
  | [], _ :: _ => none
  | x :: vs, w :: val => (maxInto vs val).map (fun r => (if w > x then w else x) :: r)

/-- The body of the loop over the matches (lines 132-142) for one match
`(str, val)` at code point index `vIndex`:
`diff := val.Len() - len(str); vs := v[vIndex-diff:]` and then the inner loop.
`none` is the slice-bounds panic of `v[vIndex-diff:]` or the panic of the
inner loop. The slice shares its cells with `v`. -/
def applyMatch (v : List Int) (vIndex : Nat) (m : Str × List Int) : Option (List Int) :=
  let diff : Int := (m.2.length : Int) - (byteLen m.1 : Int)
  let start : Int := (vIndex : Int) - diff
  if start < 0 ∨ (v.length : Int) < start then none
  else (maxInto (v.drop start.toNat) m.2).map (fun vs => v.take start.toNat ++ vs)

/-- The loop `for i := 0; i < values.Len(); i++` over the matches of one
suffix (lines 131-143). -/
def applyMatches (v : List Int) (vIndex : Nat) : Matches → Option (List Int)
  | [] => some v
  | m :: ms => (applyMatch v vIndex m).bind (fun v1 => applyMatches v1 vIndex ms)

/-- The loop `for pos, _ := range testStr` (lines 128-145), started at the
suffix `t = testStr[pos:]` with code point index `vIndex`. `A` is
`h.patterns.AllSubstringsAndValues`. -/
def scoreLoop (A : Str → Matches) : Str → Nat → List Int → Option (List Int)
  | [], _, v => some v
  | c :: rest, vIndex, v =>
    (applyMatches v vIndex (A (c :: rest))).bind (fun v1 => scoreLoop A rest (vIndex + 1) v1)

/-- The string `testStr` of `hyphenateWord` (line 125). -/
def testStr (s : Str) : Str := '.' :: (s ++ ['.'])

/-- The weight array `v` at line 146 of `hyphenateWord`: allocated with
`utf8.RuneCountInString(testStr)` zeros and filled by the scoring loop. -/
def weights (A : Str → Matches) (s : Str) : Option (List Int) :=
  scoreLoop A (testStr s) 0 (List.replicate (testStr s).length 0)

/-- The output loop `for _, ch := range s` of `hyphenateWord` (lines 153-164),
started at the code points `s` still to emit with index `mIndex`; the result
is what is appended to `outstr`. Go's `%` truncates, as `Int.tmod`. -/
def emitLoop (hyphen : Str) (markers : List Int) : Str → Nat → Str
  | [], _ => []
  | ch :: rest, mIndex =>
    (ch :: (if h : (mIndex : Int) < (markers.length : Int) - 2 then
        (if Int.tmod (markers.get ⟨mIndex, by omega⟩) 2 ≠ 0 then hyphen else [])
      else []))
      ++ emitLoop hyphen markers rest (mIndex + 1)

/-- The slice `v[1 : len(v)-1]` (line 150). -/
def trimEnds (v : List Int) : List Int := (v.drop 1).take (v.length - 1 - 1)

/-- Go `hyphenateWord(s, hyphen)` (lines 124-167) over the match function
`A = h.patterns.AllSubstringsAndValues`. -/
def hyphenateWord (A : Str → Matches) (s hyphen : Str) : Option Str :=
  (weights A s).bind (fun v =>
    if 1 ≤ v.length - 1 then some (emitLoop hyphen (trimEnds v) s 0) else none)


/-! ## The store -/

/-- The operations of `*trie.Trie` that `hyphenator.go` calls. -/
structure TrieOps (T : Type) where
  /-- Go `trie.NewTrie()`. -/
  NewTrie : T
  /-- Go `p.AddPatternString(str)`. -/
  AddPatternString : T → Str → T
  /-- Go `p.Size()`. -/
  Size : T → Nat
  /-- Go `p.AllSubstringsAndValues(t)`. -/
  AllSubstringsAndValues : T → Str → Matches

/-- A Go `map[string]string` that is not nil. -/
abbrev ExcMap := Str → Option Str

/-- Go `m[key] = value`. -/
def ExcMap.set (m : ExcMap) (key value : Str) : ExcMap :=
  fun k => if k = key then some value else m k

/-- The Go struct `Hyphenator` (lines 58-62); `none` is a nil pointer or nil map. -/
structure Hyphenator (T : Type) where
  patterns : Option T
  exceptions : Option ExcMap
  language : Str

/-- The zero value of the struct: "a hyphenator which has not been initialized
with any hyphenation patterns or language yet". -/
def Hyphenator.zero (T : Type) : Hyphenator T :=
  { patterns := none, exceptions := none, language := [] }

/-- Go `h.exceptions[t]`: the zero value `""` for a missing key or a nil map. -/
def lookupException {T : Type} (h : Hyphenator T) (t : Str) : Str :=
  match h.exceptions with
  | none => []
  | some m => (m t).getD []

/-! ## Loading -/

/-- Go `strings.Replace(s, "-", new, -1)`. -/
def replaceHyphens (s new : Str) : Str :=
  s.flatMap (fun c => if c = '-' then new else [c])

/-- A token returned by `s.Scan()` in `loadPatterns`, with `s.TokenText()`
where the code reads it. -/
inductive LoadTok where
  /-- The token `scanner.Ident`. -/
  | Ident (text : Str)
  /-- The token `scanner.String` or `scanner.RawString`; `tokstr` is the token
  text, delimiters included. -/
  | String (tokstr : Str)
  /-- Every other token: no case of the `switch` applies. -/
  | Other
  deriving DecidableEq

/-- The value of type `os.Error` that is not nil. -/
inductive Error where
  /-- The value `os.ErrorString("nil reader argument")`. -/
  | nilReader
  /-- The value `os.ErrorString(fmt.Sprintf("Unrecognized identifier '%s' at position %v", ident, s.Pos()))`. -/
  | unrecognizedIdentifier (ident : Str)
  deriving DecidableEq

/-- Go `tokstr[1 : len(tokstr)-1]` (line 109): `none` is the slice-bounds
panic when the token text is shorter than two bytes. The token text of a
string literal starts with its one-byte quote; the last code point is the
closing quote (or, for a literal that the input ends, its last code point,
taken to be one byte long). -/
def trimQuotes (tokstr : Str) : Option Str :=
  if byteLen tokstr < 2 then none else some ((tokstr.drop 1).dropLast)

/-- The token loop of `loadPatterns` (lines 95-120) from the tokens still to
come, the variable `which` and the store. The result is the store when the
function returns together with the returned `os.Error` (`none` for nil);
an outer `none` is a panic. -/
def loadLoop {T : Type} (ops : TrieOps T) : List LoadTok → Str → Hyphenator T →
    Option (Hyphenator T × Option Error)
  | [], _, h => some (h, none)
  | LoadTok.Ident ident :: rest, _, h =>
    if ident = "patterns".toList ∨ ident = "exceptions".toList then loadLoop ops rest ident h
    else some (h, some (Error.unrecognizedIdentifier ident))
  | LoadTok.String tokstr :: rest, which, h =>
    match trimQuotes tokstr with
    | none => none
    | some str =>
      if which = "patterns".toList then
        match h.patterns with
        | none => none
        | some p => loadLoop ops rest which { h with patterns := some (ops.AddPatternString p str) }
      else if which = "exceptions".toList then
        match h.exceptions with
        | none => none
        | some m =>
          loadLoop ops rest which { h with exceptions := some (m.set (replaceHyphens str []) str) }
      else loadLoop ops rest which h
  | LoadTok.Other :: rest, which, h => loadLoop ops rest which h

/-- Go `loadPatterns(reader)` (lines 87-122); `toks` are the tokens that the
scanner initialised on `reader` returns before `scanner.EOF`. -/
def loadPatterns {T : Type} (ops : TrieOps T) (h : Hyphenator T) (toks : List LoadTok) :
    Option (Hyphenator T × Option Error) :=
  loadLoop ops toks [] h

/-- Go `LoadPatterns(language, reader)` (lines 65-85); `reader` is `none` for
a nil reader and otherwise the tokens scanned from it. -/
def LoadPatterns {T : Type} (ops : TrieOps T) (h : Hyphenator T) (language : Str)
    (reader : Option (List LoadTok)) : Option (Hyphenator T × Option Error) :=
  let h1 : Hyphenator T :=
    if h.language ≠ language then { patterns := none, exceptions := none, language := language }
    else h
  if (match h1.patterns with
      | none => false
      | some p => decide (ops.Size p ≠ 0)) = true then some (h1, none)
  else
    match reader with
    | none => some (h1, some Error.nilReader)
    | some toks =>
      loadPatterns ops
        { h1 with patterns := some ops.NewTrie, exceptions := some (fun _ => none) } toks

/-! ## Hyphenating a text -/

/-- The two predicates of Go package `unicode` that the scanner uses. -/
structure CharClass where
  /-- Go `unicode.IsLetter`. -/
  isLetter : Char → Bool
  /-- Go `unicode.IsDigit`. -/
  isDigit : Char → Bool

/-- A token returned by `sc.Scan()` in `Hyphenate`
(`sc.Mode = scanner.ScanIdents`, `sc.Whitespace = 0`). -/
inductive Token where
  /-- The token `scanner.Ident` with `sc.TokenText()`. -/
  | Ident (text : Str)
  /-- Any other code point: the token is the code point itself. -/
  | Rune (ch : Char)
  deriving DecidableEq

/-- The first code point of an identifier of the scanner:
`unicode.IsLetter(ch) || ch == '_'`. -/
def CharClass.identStart (cls : CharClass) (c : Char) : Bool :=
  cls.isLetter c || c == '_'

/-- A further code point of an identifier of the scanner:
`ch == '_' || unicode.IsLetter(ch) || unicode.IsDigit(ch)`. -/
def CharClass.identPart (cls : CharClass) (c : Char) : Bool :=
  c == '_' || cls.isLetter c || cls.isDigit c

/-- The tokens that successive calls of `sc.Scan()` return before
`scanner.EOF` for the code points still to read. `cur` is the identifier being
scanned, if any. -/
def scanTokens (cls : CharClass) : Option Str → Str → List Token
  | none, [] => []
  | some ident, [] => [Token.Ident ident]
  | none, c :: rest =>
    if cls.identStart c then scanTokens cls (some [c]) rest
    else Token.Rune c :: scanTokens cls none rest
  | some ident, c :: rest =>
    if cls.identPart c then scanTokens cls (some (ident ++ [c])) rest
    else if cls.identStart c then Token.Ident ident :: scanTokens cls (some [c]) rest
    else Token.Ident ident :: Token.Rune c :: scanTokens cls none rest

/-- The byte order mark U+FEFF. -/
def byteOrderMark : Char := Char.ofNat 0xFEFF

/-- The input as the scanner reads it: a byte order mark that is the very
first code point of the input is ignored. -/
def skipBOM : Str → Str
  | [] => []
  | c :: rest => if c = byteOrderMark then rest else c :: rest

/-- The tokens that the calls of `sc.Scan()` in `Hyphenate` return for the
text `s` before `scanner.EOF` (lines 170-178, 202). -/
def scanText (cls : CharClass) (s : Str) : List Token :=
  scanTokens cls none (skipBOM s)

/-- The token loop of `Hyphenate` (lines 178-203) from the tokens still to
come and the value of `outstr`. The value of `strings.Replace(exc, "-",
hyphen, -1)` at line 188 is computed and dropped, as in the source. A nil
`h.patterns` at line 194 is a panic. -/
def hyphenateLoop {T : Type} (ops : TrieOps T) (h : Hyphenator T) (hyphen : Str) :
    List Token → Str → Option (Str × Bool)
  | [], outstr => some (outstr, true)
  | Token.Ident t :: rest, outstr =>
    let exc := lookupException h t
    if byteLen exc ≠ 0 then
      let _ := if hyphen ≠ ['-'] then replaceHyphens exc hyphen else exc
      some (exc, true)
    else
      match h.patterns with
      | none => none
      | some p =>
        (hyphenateWord (ops.AllSubstringsAndValues p) t hyphen).bind
          (fun w => hyphenateLoop ops h hyphen rest (outstr ++ w))
  | Token.Rune ch :: rest, outstr => hyphenateLoop ops h hyphen rest (outstr ++ [ch])

/-- Go `Hyphenate(s, hyphen)` (lines 169-206). -/
def Hyphenate {T : Type} (cls : CharClass) (ops : TrieOps T) (h : Hyphenator T)
    (s hyphen : Str) : Option (Str × Bool) :=
  hyphenateLoop ops h hyphen (scanText cls s) []

/-! ## The statements that the theorems compare the code with -/

/-- The output that the description of `hyphenateWord` prescribes for the word
`w`, the marker and the weight array `v`: the code points of `w` in order,
the one at index `g` followed by the marker iff `g < n - 2` and `markers[g]`
is odd, where `markers[g] = v[g+1]`. -/
def markedWord (w marker : Str) (v : List Int) : Str :=
  w.enum.flatMap (fun p =>
    p.2 :: (if p.1 < w.length - 2 ∧ Odd (v.getD (p.1 + 1) 0) then marker else []))

/-- The maximum of `init` and of the entries of `l`. -/
def maxOf (init : Int) (l : List Int) : Int := l.foldl max init

/-- The weights that the description of the scoring loop applies to `v[k]`:
`weights[i]` for every start offset `o` in `0..n+1`, every match
`(key, weights)` returned for the suffix of `t` at `o` and every `i` in
`0..len(key)` with `o + i = k`. -/
def claimedContribs (A : Str → Matches) (w : Str) (k : Nat) : List Int :=
  (List.range (w.length + 2)).flatMap (fun o =>
    (A ((testStr w).drop o)).flatMap (fun m =>
      (List.range (m.1.length + 1)).flatMap (fun i =>
        if o + i = k then (m.2.get? i).toList else [])))

/-- The weights of one match `(str, val)` at code point index `o` that the
inner loop of lines 135-142 compares with `v[k]`: `val[i]` for every `i` with
`o - (val.Len() - len(str)) + i = k`, where Go's `len(str)` is `byteLen`. -/
def matchContribs (o k : Nat) (m : Str × List Int) : List Int :=
  m.2.enum.filterMap (fun p =>
    if (o : Int) - ((m.2.length : Int) - (byteLen m.1 : Int)) + (p.1 : Int) = (k : Int)
    then some p.2 else none)

/-- The weights that the scoring loop of lines 128-145 compares with `v[k]`,
over every code point index `o` in `0..n+1` and every match returned for the
suffix of `testStr` at `o`. -/
def alignedContribs (A : Str → Matches) (w : Str) (k : Nat) : List Int :=
  (List.range (w.length + 2)).flatMap (fun o =>
    (A ((testStr w).drop o)).flatMap (matchContribs o k))

/-- Every slice and index of the scoring loop is in range: for every start
offset `o` in `0..n+1` and every match `(str, val)` returned for the suffix
at `o`, `val.Len() - len(str) ≤ o` and `o + len(str) ≤ n + 2`, where Go's
`len(str)` is `byteLen`. -/
def InRange (A : Str → Matches) (w : Str) : Prop :=
  ∀ o ∈ List.range (w.length + 2), ∀ m ∈ A ((testStr w).drop o),
    (m.2.length : Int) - (byteLen m.1 : Int) ≤ (o : Int) ∧ o + byteLen m.1 ≤ w.length + 2

instance (A : Str → Matches) (w : Str) : Decidable (InRange A w) := by
  unfold InRange; infer_instance

/-- Every key returned for a suffix of the bracketed word is made of one-byte
code points, so that its length in bytes is its number of code points. -/
def OneByteKeys (A : Str → Matches) (w : Str) : Prop :=
  ∀ o ∈ List.range (w.length + 2), ∀ m ∈ A ((testStr w).drop o), byteLen m.1 = m.1.length

instance (A : Str → Matches) (w : Str) : Decidable (OneByteKeys A w) := by
  unfold OneByteKeys; infer_instance

/-- The weights of one match `(key, weights)` at start offset `o` that the
amended description applies to `v[k]`: `weights[i]` for every index `i` of
`weights` with `o - (len(weights) - len(key)) + i = k`, `len(key)` being the
number of code points of the key. -/
def shiftedMatchContribs (o k : Nat) (m : Str × List Int) : List Int :=
  m.2.enum.filterMap (fun p =>
    if (o : Int) - ((m.2.length : Int) - (m.1.length : Int)) + (p.1 : Int) = (k : Int)
    then some p.2 else none)

/-- The weights that the amended description applies to `v[k]`, over every
start offset `o` in `0..n+1` and every match returned for the suffix of `t`
at `o`. -/
def shiftedContribs (A : Str → Matches) (w : Str) (k : Nat) : List Int :=
  (List.range (w.length + 2)).flatMap (fun o =>
    (A ((testStr w).drop o)).flatMap (shiftedMatchContribs o k))

/-- For every start offset `o` in `0..n+1` and every match `(key, weights)`
returned for the suffix at `o`, `len(weights) - len(key) ≤ o` and
`o + len(key) ≤ n + 2`, `len(key)` being the number of code points of the key. -/
def Fits (A : Str → Matches) (w : Str) : Prop :=
  ∀ o ∈ List.range (w.length + 2), ∀ m ∈ A ((testStr w).drop o),
    (m.2.length : Int) - (m.1.length : Int) ≤ (o : Int) ∧ o + m.1.length ≤ w.length + 2

instance (A : Str → Matches) (w : Str) : Decidable (Fits A w) := by
  unfold Fits; infer_instance

/-- The word `w` with the string `gaps[g]` put after its code point `g`. -/
def interleave : Str → List Str → Str
  | [], _ => []
  | c :: w, [] => c :: interleave w []
  | c :: w, gap :: gaps => (c :: gap) ++ interleave w gaps

/-- Go `strings.Replace(s, old, "", -1)` for a non-empty `old`: every
occurrence of `old`, found from left to right without overlap, is removed.
`skip` is the number of code points of the current occurrence still to drop. -/
def removeAll (old : Str) : Str → Nat → Str
  | [], _ => []
  | _ :: rest, skip + 1 => removeAll old rest skip
  | c :: rest, 0 =>
    if old ≠ [] ∧ (c :: rest).take old.length = old then removeAll old rest (old.length - 1)
    else c :: removeAll old rest 0

/-- Whether the text of a string token ends in a one-byte code point, as the
text of every terminated literal does (its closing quote): there the byte
slice of line 109 cuts between code points and `trimQuotes` is that slice. -/
def endsInOneByte (tokstr : Str) : Bool :=
  match tokstr.getLast? with
  | some c => c.utf8Size == 1
  | none => false

/-- The contents of the string tokens of the section `sect` in a token
sequence, in order; `which` is the section at the start of the sequence. -/
def sectionStrings (sect : Str) : List LoadTok → Str → List Str
  | [], _ => []
  | LoadTok.Ident ident :: rest, _ => sectionStrings sect rest ident
  | LoadTok.String tokstr :: rest, which =>
    (if which = sect then (trimQuotes tokstr).toList else []) ++ sectionStrings sect rest which
  | LoadTok.Other :: rest, which => sectionStrings sect rest which

/-! ## A small store for the examples -/

/-- Whether `key` is an initial segment of `t`. -/
def startsWith : Str → Str → Bool
  | [], _ => true
  | _ :: _, [] => false
  | a :: key, b :: t => a == b && startsWith key t

/-- Modelled from the spec: the pattern trie (package go-trie) is not among
the sources. A pattern-source string is letters interspersed with digits; a
digit sets the weight of the gap before the next letter (or of the last gap),
gaps without a digit have weight 0, and the residue without digits is the key:
`a1b2c` gives the key `abc` and the weights `[0, 1, 2, 0]`. -/
def parsePattern : Str → Str × List Int → Str × List Int
  | [], acc => acc
  | c :: rest, (key, ws) =>
    if c.isDigit then parsePattern rest (key, ws.dropLast ++ [((c.toNat - 48 : Nat) : Int)])
    else parsePattern rest (key ++ [c], ws ++ [0])

/-- Modelled from the spec: the pattern trie (package go-trie) is not among
the sources. The pattern set is a mapping from key to weight vector, kept as a
list of entries with unique keys, the last-loaded value winning; a query
returns every stored key that is an initial segment of the queried suffix,
with its weight vector. -/
def listTrie : TrieOps (List (Str × List Int)) where
  NewTrie := []
  AddPatternString := fun p str =>
    let e := parsePattern str ([], [0])
    p.filter (fun x => x.1 ≠ e.1) ++ [e]
  Size := fun p => p.length
  AllSubstringsAndValues := fun p t => p.filter (fun x => startsWith x.1 t)

/-- The predicates `unicode.IsLetter` and `unicode.IsDigit` on ASCII text. -/
def asciiClass : CharClass where
  isLetter := Char.isAlpha
  isDigit := Char.isDigit

/-- The output that the description of `Hyphenate` prescribes for a sequence
of runs: the concatenation, in order, of the stored form for a word run that
is an exception key, of `hyphenateWord` for any other word run, and of the
code point itself for every other run. -/
def concatRuns {T : Type} (ops : TrieOps T) (h : Hyphenator T) (hyphen : Str) :
    List Token → Option Str
  | [] => some []
  | Token.Ident t :: rest =>
    if lookupException h t ≠ [] then
      (concatRuns ops h hyphen rest).map (fun out => lookupException h t ++ out)
    else
      match h.patterns with
      | none => none
      | some p =>
        (hyphenateWord (ops.AllSubstringsAndValues p) t hyphen).bind
          (fun w => (concatRuns ops h hyphen rest).map (fun out => w ++ out))
  | Token.Rune ch :: rest => (concatRuns ops h hyphen rest).map (fun out => ch :: out)

/-- A pattern source for the examples: one pattern and the exception `ta-ble`. -/
def tableTokens : List LoadTok :=
  [LoadTok.Ident "patterns".toList, LoadTok.String "`a1b`".toList,
   LoadTok.Ident "exceptions".toList, LoadTok.String "`ta-ble`".toList]

/-- The store after `LoadPatterns("en", ...)` of `tableTokens` into the zero value. -/
def tableStore : Option (Hyphenator (List (Str × List Int))) :=
  (LoadPatterns listTrie (Hyphenator.zero _) "en".toList (some tableTokens)).map (fun r => r.1)

/-- The store on which `LoadPatterns` calls `loadPatterns`: a new trie and a
new, empty map. -/
def freshStore {T : Type} (ops : TrieOps T) (language : Str) : Hyphenator T :=
  { patterns := some ops.NewTrie, exceptions := some (fun _ => none), language := language }

/-- A store for the examples: the pattern `a1b2c` and the exception `ta-ble`. -/
def abcStore : Hyphenator (List (Str × List Int)) :=
  { patterns := some [("abc".toList, [0, 1, 2, 0])],
    exceptions := some (ExcMap.set (fun _ => none) "table".toList "ta-ble".toList),
    language := "en".toList }

/-! ## Lemmas on the scoring loop -/

theorem maxInto_length : ∀ (val vs r : List Int), maxInto vs val = some r → r.length = vs.length
  | [], vs, r, h => by
    cases vs <;> simp [maxInto] at h <;> subst h <;> rfl
  | _ :: _, [], r, h => by simp [maxInto] at h
  | w :: val, x :: vs, r, h => by
    simp only [maxInto, Option.map_eq_some'] at h
    obtain ⟨r1, h1, rfl⟩ := h
    simp [maxInto_length val vs r1 h1]

theorem applyMatch_length (v : List Int) (vIndex : Nat) (m : Str × List Int) (v1 : List Int)
    (h : applyMatch v vIndex m = some v1) : v1.length = v.length := by
  unfold applyMatch at h
  simp only at h
  split at h
  · simp at h
  · rename_i hs
    simp only [Option.map_eq_some'] at h
    obtain ⟨r, hr, rfl⟩ := h
    have := maxInto_length _ _ _ hr
    simp only [List.length_append, List.length_take, this, List.length_drop]
    omega

theorem applyMatches_length : ∀ (ms : Matches) (v : List Int) (vIndex : Nat) (v1 : List Int),
    applyMatches v vIndex ms = some v1 → v1.length = v.length
  | [], v, _, v1, h => by simp [applyMatches] at h; simp [h]
  | m :: ms, v, vIndex, v1, h => by
    simp only [applyMatches, Option.bind_eq_some] at h
    obtain ⟨v2, h2, h3⟩ := h
    rw [applyMatches_length ms v2 vIndex v1 h3, applyMatch_length v vIndex m v2 h2]

theorem scoreLoop_length (A : Str → Matches) : ∀ (t : Str) (vIndex : Nat) (v v1 : List Int),
    scoreLoop A t vIndex v = some v1 → v1.length = v.length
  | [], _, v, v1, h => by simp [scoreLoop] at h; simp [h]
  | c :: rest, vIndex, v, v1, h => by
    simp only [scoreLoop, Option.bind_eq_some] at h
    obtain ⟨v2, h2, h3⟩ := h
    rw [scoreLoop_length A rest (vIndex + 1) v2 v1 h3, applyMatches_length _ v vIndex v2 h2]

theorem weights_length (A : Str → Matches) (s : Str) (v : List Int)
    (h : weights A s = some v) : v.length = s.length + 2 := by
  unfold weights at h
  rw [scoreLoop_length A _ _ _ _ h]
  simp [testStr]

/-! ## Lemmas on the output loop -/

theorem tmod_two_ne_zero_iff_odd (m : Int) : Int.tmod m 2 ≠ 0 ↔ Odd m := by
  rw [Int.odd_iff, Int.tmod_def]
  rcases le_or_lt 0 m with h | h
  · rw [Int.tdiv_eq_ediv h (by decide)]
    omega
  · have h1 : m.tdiv 2 = -((-m) / 2) := by
      have h2 := Int.neg_tdiv (-m) 2
      rw [neg_neg] at h2
      rw [h2, Int.tdiv_eq_ediv (by omega) (by decide)]
    rw [h1]
    omega

theorem trimEnds_length (v : List Int) : (trimEnds v).length = v.length - 2 := by
  simp only [trimEnds, List.length_take, List.length_drop]
  omega

theorem trimEnds_getElem? (v : List Int) (k : Nat) (hk : k + 2 < v.length) :
    (trimEnds v)[k]? = v[k + 1]? := by
  simp only [trimEnds]
  rw [List.getElem?_take_of_lt (by omega), List.getElem?_drop, Nat.add_comm]

theorem emitLoop_eq (hyphen : Str) (v : List Int) (n : Nat) (hv : v.length = n + 2) :
    ∀ (s : Str) (k : Nat), emitLoop hyphen (trimEnds v) s k =
      (s.enumFrom k).flatMap (fun p =>
        p.2 :: (if p.1 < n - 2 ∧ Odd (v.getD (p.1 + 1) 0) then hyphen else []))
  | [], _ => by simp [emitLoop]
  | c :: rest, k => by
    rw [emitLoop, emitLoop_eq hyphen v n hv rest (k + 1), List.enumFrom_cons, List.flatMap_cons]
    congr 2
    have hlen := trimEnds_length v
    by_cases hk : (k : Int) < ((trimEnds v).length : Int) - 2
    · have hk2 : k < n - 2 := by omega
      have hget : (trimEnds v).get ⟨k, by omega⟩ = v.getD (k + 1) 0 := by
        have h1 := trimEnds_getElem? v k (by omega)
        rw [List.getD_eq_getElem?_getD, ← h1, List.get_eq_getElem,
          List.getElem?_eq_getElem (by omega)]
        rfl
      rw [dif_pos hk, hget]
      by_cases ho : Odd (v.getD (k + 1) 0)
      · rw [if_pos ((tmod_two_ne_zero_iff_odd _).2 ho), if_pos ⟨hk2, ho⟩]
      · rw [if_neg (fun h => ho ((tmod_two_ne_zero_iff_odd _).1 h)), if_neg (fun h => ho h.2)]
    · have hk2 : ¬ k < n - 2 := by omega
      rw [dif_neg hk, if_neg (fun h => hk2 h.1)]

/-! ## Lemmas on the maximum taken by the scoring loop -/

theorem maxOf_append (a : Int) (l1 l2 : List Int) :
    maxOf a (l1 ++ l2) = maxOf (maxOf a l1) l2 := by
  simp [maxOf, List.foldl_append]

theorem enumFrom_filterMap_below (t : Nat) : ∀ (val : List Int) (s : Nat), t < s →
    (val.enumFrom s).filterMap (fun p => if p.1 = t then some p.2 else none) = []
  | [], _, _ => rfl
  | w :: val, s, h => by
    rw [List.enumFrom_cons, List.filterMap_cons]
    have hne : ¬ s = t := by omega
    simp only [if_neg hne]
    exact enumFrom_filterMap_below t val (s + 1) (by omega)

theorem maxInto_getD : ∀ (val vs r : List Int) (s j : Nat), maxInto vs val = some r →
    r.getD j 0 = maxOf (vs.getD j 0)
      ((val.enumFrom s).filterMap (fun p => if p.1 = s + j then some p.2 else none))
  | [], vs, r, s, j, h => by
    cases vs <;> simp [maxInto] at h <;> subst h <;> simp [maxOf]
  | _ :: _, [], r, _, _, h => by simp [maxInto] at h
  | w :: val, x :: vs, r, s, j, h => by
    simp only [maxInto, Option.map_eq_some'] at h
    obtain ⟨r1, h1, rfl⟩ := h
    cases j with
    | zero =>
      rw [List.enumFrom_cons, List.filterMap_cons]
      simp only [Nat.add_zero, if_true]
      rw [enumFrom_filterMap_below s val (s + 1) (by omega)]
      simp only [List.getD_cons_zero, maxOf, List.foldl_cons, List.foldl_nil, max_def]
      split_ifs <;> omega
    | succ j =>
      rw [List.enumFrom_cons, List.filterMap_cons]
      have hne : ¬ s = s + (j + 1) := by omega
      simp only [if_neg hne]
      have := maxInto_getD val vs r1 (s + 1) j h1
      rw [List.getD_cons_succ, List.getD_cons_succ, this]
      have e : s + 1 + j = s + (j + 1) := by omega
      rw [e]

theorem applyMatch_getD (v : List Int) (o : Nat) (m : Str × List Int) (v1 : List Int)
    (h : applyMatch v o m = some v1) (k : Nat) :
    v1.getD k 0 = maxOf (v.getD k 0) (matchContribs o k m) := by
  unfold applyMatch at h
  simp only at h
  split at h
  · simp at h
  · rename_i hs
    simp only [Option.map_eq_some'] at h
    obtain ⟨r, hr, rfl⟩ := h
    obtain ⟨st, hst⟩ : ∃ st : Nat,
        (o : Int) - ((m.2.length : Int) - (byteLen m.1 : Int)) = (st : Int) :=
      ⟨_, (Int.toNat_of_nonneg (by omega)).symm⟩
    rw [hst] at hr hs
    simp only [Int.toNat_ofNat] at hr
    have hle : st ≤ v.length := by omega
    unfold matchContribs
    rw [hst, Int.toNat_ofNat, List.enum_eq_enumFrom]
    by_cases hk : k < st
    · rw [List.getD_append _ _ _ _ (by simp; omega)]
      have he : (m.2.enumFrom 0).filterMap (fun p =>
          if (st : Int) + (p.1 : Int) = (k : Int) then some p.2 else none) = [] := by
        rw [List.filterMap_eq_nil_iff]
        intro a _
        rw [if_neg (by omega)]
      rw [he]
      simp [maxOf, List.getElem?_take_of_lt hk]
    · have hlen : (v.take st).length = st := by simp; omega
      rw [List.getD_append_right _ _ _ _ (by omega), hlen, maxInto_getD m.2 _ r 0 (k - st) hr]
      have hf : (fun p : Nat × Int => if p.1 = 0 + (k - st) then some p.2 else none) =
          (fun p : Nat × Int => if (st : Int) + (p.1 : Int) = (k : Int) then some p.2 else none) := by
        funext p
        by_cases hp : p.1 = 0 + (k - st)
        · rw [if_pos hp, if_pos (by omega)]
        · rw [if_neg hp, if_neg (by omega)]
      rw [hf]
      congr 1
      simp only [List.getD_eq_getElem?_getD, List.getElem?_drop]
      congr 2
      omega

theorem applyMatches_getD : ∀ (ms : Matches) (v : List Int) (o : Nat) (v1 : List Int),
    applyMatches v o ms = some v1 → ∀ k : Nat,
      v1.getD k 0 = maxOf (v.getD k 0) (ms.flatMap (matchContribs o k))
  | [], v, _, v1, h, k => by
    simp [applyMatches] at h
    simp [h, maxOf]
  | m :: ms, v, o, v1, h, k => by
    simp only [applyMatches, Option.bind_eq_some] at h
    obtain ⟨v2, h2, h3⟩ := h
    rw [applyMatches_getD ms v2 o v1 h3 k, applyMatch_getD v o m v2 h2 k, List.flatMap_cons,
      maxOf_append]

theorem scoreLoop_getD (A : Str → Matches) : ∀ (t : Str) (o : Nat) (v v1 : List Int),
    scoreLoop A t o v = some v1 → ∀ k : Nat,
      v1.getD k 0 = maxOf (v.getD k 0)
        ((List.range t.length).flatMap (fun j => (A (t.drop j)).flatMap (matchContribs (o + j) k)))
  | [], _, v, v1, h, k => by
    simp [scoreLoop] at h
    simp [h, maxOf]
  | c :: rest, o, v, v1, h, k => by
    simp only [scoreLoop, Option.bind_eq_some] at h
    obtain ⟨v2, h2, h3⟩ := h
    rw [scoreLoop_getD A rest (o + 1) v2 v1 h3 k, applyMatches_getD _ v o v2 h2 k,
      List.length_cons, List.range_succ_eq_map, List.flatMap_cons, List.flatMap_map,
      maxOf_append]
    congr 2
    funext j
    simp only [Function.comp, Nat.succ_eq_add_one, List.drop_succ_cons, List.drop_zero,
      Nat.add_zero]
    congr 2
    funext m
    congr 1
    omega

/-! ## Lemmas on the scoring loop running to its end -/

theorem maxInto_isSome : ∀ (val vs : List Int), val.length ≤ vs.length →
    ∃ r, maxInto vs val = some r
  | [], vs, _ => ⟨vs, by cases vs <;> rfl⟩
  | _ :: _, [], h => by simp at h
  | w :: val, x :: vs, h => by
    obtain ⟨r, hr⟩ := maxInto_isSome val vs (by simpa using h)
    exact ⟨(if w > x then w else x) :: r, by simp [maxInto, hr]⟩

theorem applyMatch_isSome (v : List Int) (o : Nat) (m : Str × List Int)
    (h1 : (m.2.length : Int) - (byteLen m.1 : Int) ≤ (o : Int))
    (h2 : o + byteLen m.1 ≤ v.length) : ∃ v1, applyMatch v o m = some v1 := by
  unfold applyMatch
  simp only
  rw [if_neg (by omega)]
  obtain ⟨r, hr⟩ := maxInto_isSome m.2
    (v.drop ((o : Int) - ((m.2.length : Int) - (byteLen m.1 : Int))).toNat)
    (by rw [List.length_drop]; omega)
  exact ⟨_, by rw [hr]; rfl⟩

theorem applyMatches_isSome : ∀ (ms : Matches) (v : List Int) (o : Nat),
    (∀ m ∈ ms, (m.2.length : Int) - (byteLen m.1 : Int) ≤ (o : Int) ∧
      o + byteLen m.1 ≤ v.length) → ∃ v1, applyMatches v o ms = some v1
  | [], v, _, _ => ⟨v, rfl⟩
  | m :: ms, v, o, h => by
    obtain ⟨v2, h2⟩ := applyMatch_isSome v o m (h m (by simp)).1 (h m (by simp)).2
    have hl := applyMatch_length v o m v2 h2
    obtain ⟨v1, h1⟩ := applyMatches_isSome ms v2 o (fun x hx => by
      rw [hl]
      exact h x (List.mem_cons_of_mem _ hx))
    exact ⟨v1, by simp [applyMatches, h2, h1]⟩

theorem scoreLoop_isSome (A : Str → Matches) : ∀ (t : Str) (o : Nat) (v : List Int),
    (∀ j, j < t.length → ∀ m ∈ A (t.drop j),
      (m.2.length : Int) - (byteLen m.1 : Int) ≤ ((o + j : Nat) : Int) ∧
      o + j + byteLen m.1 ≤ v.length) → ∃ v1, scoreLoop A t o v = some v1
  | [], _, v, _ => ⟨v, rfl⟩
  | c :: rest, o, v, h => by
    obtain ⟨v2, h2⟩ := applyMatches_isSome (A (c :: rest)) v o (fun m hm => by
      simpa using h 0 (by simp) m (by simpa using hm))
    have hl := applyMatches_length _ v o v2 h2
    obtain ⟨v1, h1⟩ := scoreLoop_isSome A rest (o + 1) v2 (fun j hj m hm => by
      have := h (j + 1) (by simpa using hj) m (by simpa using hm)
      rw [hl]
      have e : o + 1 + j = o + (j + 1) := by omega
      rw [e]
      exact this)
    exact ⟨v1, by simp [scoreLoop, h2, h1]⟩

theorem weights_isSome (A : Str → Matches) (w : Str) (h : InRange A w) :
    ∃ v, weights A w = some v := by
  unfold weights
  apply scoreLoop_isSome
  intro j hj m hm
  have hj2 : j < w.length + 2 := by simpa [testStr] using hj
  have := h j (List.mem_range.2 hj2) m hm
  simp only [List.length_replicate, testStr, List.length_cons, List.length_append,
    List.length_nil, Nat.zero_add]
  omega

theorem weights_getD (A : Str → Matches) (w : Str) (v : List Int) (h : weights A w = some v)
    (k : Nat) : v.getD k 0 = maxOf 0 (alignedContribs A w k) := by
  unfold weights at h
  rw [scoreLoop_getD A _ 0 _ v h k]
  have h0 : (List.replicate (testStr w).length (0 : Int)).getD k 0 = 0 := by
    rw [List.getD_eq_getElem?_getD, List.getElem?_replicate]
    split <;> rfl
  rw [h0]
  have hl : (testStr w).length = w.length + 2 := by simp [testStr]
  simp only [alignedContribs, hl, Nat.zero_add]

theorem hyphenateWord_eq_map (A : Str → Matches) (w marker : Str) :
    hyphenateWord A w marker = (weights A w).map (fun v => markedWord w marker v) := by
  unfold hyphenateWord
  cases hw : weights A w with
  | none => rfl
  | some v =>
    have hv := weights_length A w v hw
    simp only [Option.some_bind, Option.map_some']
    rw [if_pos (by omega), emitLoop_eq marker v w.length hv w 0]
    rfl

/-! ## Lemmas on the gaps of the output -/

theorem enumFrom_flatMap_eq_interleave (G : Nat → Str) : ∀ (w : Str) (k : Nat),
    (w.enumFrom k).flatMap (fun p => p.2 :: G p.1) =
      interleave w ((List.range' k w.length).map G)
  | [], _ => rfl
  | c :: w, k => by
    rw [List.enumFrom_cons, List.flatMap_cons, List.length_cons, List.range'_succ,
      List.map_cons, interleave, enumFrom_flatMap_eq_interleave G w (k + 1)]

/-! ## Lemmas on the token loop of `Hyphenate` -/

theorem scanTokens_no_identStart (cls : CharClass) : ∀ (s : Str),
    (∀ c ∈ s, cls.identStart c = false) → scanTokens cls none s = s.map Token.Rune
  | [], _ => rfl
  | c :: rest, h => by
    have hc : cls.identStart c = false := h c (by simp)
    rw [scanTokens, hc, List.map_cons,
      scanTokens_no_identStart cls rest (fun x hx => h x (List.mem_cons_of_mem _ hx))]
    rfl

theorem skipBOM_cons (a : Char) (rest : Str) :
    skipBOM (a :: rest) = if a = byteOrderMark then rest else a :: rest := rfl

theorem skipBOM_mem (s : Str) (c : Char) (h : c ∈ skipBOM s) : c ∈ s := by
  cases s with
  | nil => exact h
  | cons a rest =>
    rw [skipBOM_cons] at h
    by_cases ha : a = byteOrderMark
    · rw [if_pos ha] at h
      exact List.mem_cons_of_mem _ h
    · rw [if_neg ha] at h
      exact h

theorem skipBOM_of_head (s : Str) (h : s.head? ≠ some byteOrderMark) : skipBOM s = s := by
  cases s with
  | nil => rfl
  | cons a rest =>
    have ha : ¬ a = byteOrderMark := fun e => h (by rw [e]; rfl)
    rw [skipBOM_cons, if_neg ha]

theorem hyphenateLoop_runes {T : Type} (ops : TrieOps T) (h : Hyphenator T) (hyphen : Str) :
    ∀ (s outstr : Str),
      hyphenateLoop ops h hyphen (s.map Token.Rune) outstr = some (outstr ++ s, true)
  | [], outstr => by simp [hyphenateLoop]
  | c :: rest, outstr => by
    rw [List.map_cons, hyphenateLoop, hyphenateLoop_runes ops h hyphen rest (outstr ++ [c])]
    simp

/-! ## Lemmas on loading -/

theorem loadLoop_ok {T : Type} (ops : TrieOps T) : ∀ (toks : List LoadTok) (which : Str)
    (h h1 : Hyphenator T) (p : T) (m : ExcMap), h.patterns = some p → h.exceptions = some m →
    loadLoop ops toks which h = some (h1, none) →
    h1.language = h.language ∧
    h1.patterns = some ((sectionStrings "patterns".toList toks which).foldl
      ops.AddPatternString p) ∧
    h1.exceptions = some ((sectionStrings "exceptions".toList toks which).foldl
      (fun (m : ExcMap) str => m.set (replaceHyphens str []) str) m)
  | [], which, h, h1, p, m, hp, hm, hl => by
    simp only [loadLoop, Option.some.injEq, Prod.mk.injEq, and_true] at hl
    subst hl
    exact ⟨rfl, hp, hm⟩
  | LoadTok.Ident ident :: rest, which, h, h1, p, m, hp, hm, hl => by
    rw [loadLoop] at hl
    split at hl
    · exact loadLoop_ok ops rest ident h h1 p m hp hm hl
    · simp at hl
  | LoadTok.Other :: rest, which, h, h1, p, m, hp, hm, hl => by
    rw [loadLoop] at hl
    exact loadLoop_ok ops rest which h h1 p m hp hm hl
  | LoadTok.String tokstr :: rest, which, h, h1, p, m, hp, hm, hl => by
    obtain ⟨hpat, hexc, hlang⟩ := h
    simp only at hp hm
    subst hp hm
    rw [loadLoop] at hl
    cases ht : trimQuotes tokstr with
    | none => simp [ht] at hl
    | some str =>
      simp only [ht] at hl
      have hne : "patterns".toList ≠ "exceptions".toList := by decide
      rw [sectionStrings, sectionStrings, ht]
      by_cases hw : which = "patterns".toList
      · rw [if_pos hw] at hl
        have hw2 : ¬ which = "exceptions".toList := fun e => hne (hw.symm.trans e)
        have := loadLoop_ok ops rest which _ h1 (ops.AddPatternString p str) m rfl rfl hl
        rw [if_pos hw, if_neg hw2]
        exact this
      · rw [if_neg hw] at hl
        by_cases hw2 : which = "exceptions".toList
        · rw [if_pos hw2] at hl
          have := loadLoop_ok ops rest which _ h1 p (m.set (replaceHyphens str []) str)
            rfl rfl hl
          rw [if_neg hw, if_pos hw2]
          exact this
        · rw [if_neg hw2] at hl
          have := loadLoop_ok ops rest which _ h1 p m rfl rfl hl
          rw [if_neg hw, if_neg hw2]
          exact this

/-! ## Lemmas on short words and on quoted strings -/

theorem enumFrom_flatMap_no_gap (marker : Str) (P : Nat → Prop) [DecidablePred P] :
    ∀ (s : Str) (k : Nat),
      (s.enumFrom k).flatMap (fun p => p.2 :: (if p.1 < 0 ∧ P p.1 then marker else [])) = s
  | [], _ => rfl
  | c :: s, k => by
    rw [List.enumFrom_cons, List.flatMap_cons, enumFrom_flatMap_no_gap marker P s (k + 1)]
    simp

theorem markedWord_short (w marker : Str) (v : List Int) (h : w.length ≤ 2) :
    markedWord w marker v = w := by
  unfold markedWord
  have h0 : w.length - 2 = 0 := by omega
  rw [h0, List.enum_eq_enumFrom]
  exact enumFrom_flatMap_no_gap marker (fun g => Odd (v.getD (g + 1) 0)) w 0

theorem trimQuotes_quoted (s : Str) : trimQuotes ("`".toList ++ s ++ "`".toList) = some s := by
  unfold trimQuotes
  have hb : ¬ byteLen ("`".toList ++ s ++ "`".toList) < 2 := by
    have h1 : byteLen ("`".toList ++ s ++ "`".toList) = 1 + byteLen s + 1 := by
      simp only [byteLen, List.map_append, List.sum_append]
      rfl
    omega
  rw [if_neg hb]
  have hd : ("`".toList ++ s ++ "`".toList).drop 1 = s ++ "`".toList := rfl
  rw [hd]
  exact congrArg some (List.dropLast_concat)

theorem loadLoop_pattern_strings {T : Type} (ops : TrieOps T) :
    ∀ (ss : List Str) (p : T) (m : Option ExcMap) (language : Str),
      loadLoop ops (ss.map (fun s => LoadTok.String ("`".toList ++ s ++ "`".toList)))
        "patterns".toList { patterns := some p, exceptions := m, language := language } =
      some ({ patterns := some (ss.foldl ops.AddPatternString p), exceptions := m,
              language := language }, none)
  | [], _, _, _ => rfl
  | s :: ss, p, m, language => by
    rw [List.map_cons, loadLoop, trimQuotes_quoted]
    simp only [if_true]
    exact loadLoop_pattern_strings ops ss (ops.AddPatternString p s) m language

/-! ## Lemmas on the errors of loading -/

theorem trimQuotes_of_two_bytes (tokstr : Str) (h : 2 ≤ byteLen tokstr) :
    trimQuotes tokstr = some ((tokstr.drop 1).dropLast) := by
  unfold trimQuotes
  rw [if_neg (by omega)]

theorem loadLoop_error_iff {T : Type} (ops : TrieOps T) : ∀ (toks : List LoadTok) (which : Str)
    (p : T) (m : ExcMap) (language : Str),
    (∀ tokstr, LoadTok.String tokstr ∈ toks → 2 ≤ byteLen tokstr) →
    ∃ h1 e, loadLoop ops toks which
        { patterns := some p, exceptions := some m, language := language } = some (h1, e) ∧
      (e ≠ none ↔ ∃ ident, LoadTok.Ident ident ∈ toks ∧
        ident ≠ "patterns".toList ∧ ident ≠ "exceptions".toList)
  | [], which, p, m, language, _ => ⟨_, none, rfl, by simp⟩
  | LoadTok.Ident ident :: rest, which, p, m, language, hs => by
    by_cases hi : ident = "patterns".toList ∨ ident = "exceptions".toList
    · obtain ⟨h1, e, he, hiff⟩ := loadLoop_error_iff ops rest ident p m language
        (fun s hm => hs s (List.mem_cons_of_mem _ hm))
      refine ⟨h1, e, by rw [loadLoop, if_pos hi]; exact he, hiff.trans ⟨?_, ?_⟩⟩
      · rintro ⟨i, hm, h1, h2⟩
        exact ⟨i, List.mem_cons_of_mem _ hm, h1, h2⟩
      · rintro ⟨i, hm, h1, h2⟩
        rcases List.mem_cons.1 hm with heq | hm
        · injection heq with heq
          subst heq
          exact (hi.elim h1 h2).elim
        · exact ⟨i, hm, h1, h2⟩
    · refine ⟨_, some (Error.unrecognizedIdentifier ident), by rw [loadLoop, if_neg hi], ?_⟩
      simp only [ne_eq, reduceCtorEq, not_false_eq_true, true_iff]
      exact ⟨ident, by simp, fun h => hi (Or.inl h), fun h => hi (Or.inr h)⟩
  | LoadTok.Other :: rest, which, p, m, language, hs => by
    obtain ⟨h1, e, he, hiff⟩ := loadLoop_error_iff ops rest which p m language
      (fun s hm => hs s (List.mem_cons_of_mem _ hm))
    refine ⟨h1, e, by rw [loadLoop]; exact he, hiff.trans ⟨?_, ?_⟩⟩
    · rintro ⟨i, hm, h1, h2⟩
      exact ⟨i, List.mem_cons_of_mem _ hm, h1, h2⟩
    · rintro ⟨i, hm, h1, h2⟩
      rcases List.mem_cons.1 hm with heq | hm
      · exact absurd heq (by simp)
      · exact ⟨i, hm, h1, h2⟩
  | LoadTok.String tokstr :: rest, which, p, m, language, hs => by
    have ht := trimQuotes_of_two_bytes tokstr (hs tokstr (by simp))
    have hmem : (∃ ident, LoadTok.Ident ident ∈ rest ∧
        ident ≠ "patterns".toList ∧ ident ≠ "exceptions".toList) ↔
        ∃ ident, LoadTok.Ident ident ∈ LoadTok.String tokstr :: rest ∧
        ident ≠ "patterns".toList ∧ ident ≠ "exceptions".toList := by
      constructor
      · rintro ⟨i, hm, h1, h2⟩
        exact ⟨i, List.mem_cons_of_mem _ hm, h1, h2⟩
      · rintro ⟨i, hm, h1, h2⟩
        rcases List.mem_cons.1 hm with heq | hm
        · exact absurd heq (by simp)
        · exact ⟨i, hm, h1, h2⟩
    have hrest : ∀ s, LoadTok.String s ∈ rest → 2 ≤ byteLen s :=
      fun s hm => hs s (List.mem_cons_of_mem _ hm)
    rw [loadLoop, ht]
    simp only
    by_cases hw : which = "patterns".toList
    · rw [if_pos hw]
      obtain ⟨h1, e, he, hiff⟩ := loadLoop_error_iff ops rest which
        (ops.AddPatternString p ((tokstr.drop 1).dropLast)) m language hrest
      exact ⟨h1, e, he, hiff.trans hmem⟩
    · rw [if_neg hw]
      by_cases hw2 : which = "exceptions".toList
      · rw [if_pos hw2]
        obtain ⟨h1, e, he, hiff⟩ := loadLoop_error_iff ops rest which p
          (m.set (replaceHyphens ((tokstr.drop 1).dropLast) []) ((tokstr.drop 1).dropLast))
          language hrest
        exact ⟨h1, e, he, hiff.trans hmem⟩
      · rw [if_neg hw2]
        obtain ⟨h1, e, he, hiff⟩ := loadLoop_error_iff ops rest which p m language hrest
        exact ⟨h1, e, he, hiff.trans hmem⟩

theorem foldl_set_apply : ∀ (es : List Str) (m : ExcMap) (k : Str),
    (es.foldl (fun (m : ExcMap) str => m.set (replaceHyphens str []) str) m) k =
      (es.reverse.find? (fun e => decide (replaceHyphens e [] = k))).or (m k)
  | [], m, k => rfl
  | e :: es, m, k => by
    rw [List.foldl_cons, foldl_set_apply es _ k, List.reverse_cons, List.find?_append]
    cases hf : List.find? (fun e => decide (replaceHyphens e [] = k)) es.reverse with
    | some x => rfl
    | none =>
      simp only [Option.none_or, ExcMap.set, List.find?_cons, List.find?_nil]
      by_cases hk : k = replaceHyphens e []
      · rw [if_pos hk, decide_eq_true hk.symm]
        rfl
      · rw [if_neg hk, decide_eq_false (fun h => hk h.symm)]
        rfl

theorem LoadPatterns_zero {T : Type} (ops : TrieOps T) (language : Str) (toks : List LoadTok) :
    LoadPatterns ops (Hyphenator.zero T) language (some toks) =
      loadPatterns ops (freshStore ops language) toks := by
  by_cases hl : ([] : Str) = language
  · subst hl
    simp [LoadPatterns, freshStore, Hyphenator.zero]
  · simp [LoadPatterns, freshStore, Hyphenator.zero, hl]

/-! ## Lemmas on the scoring loop: when it runs to its end, and the order of the matches -/

theorem maxInto_some_le : ∀ (val vs r : List Int), maxInto vs val = some r →
    val.length ≤ vs.length
  | [], _, _, _ => by simp
  | _ :: _, [], _, h => by simp [maxInto] at h
  | w :: val, x :: vs, r, h => by
    simp only [maxInto, Option.map_eq_some'] at h
    obtain ⟨r1, h1, _⟩ := h
    have := maxInto_some_le val vs r1 h1
    simp only [List.length_cons]
    omega

theorem applyMatch_some_inRange (v : List Int) (o : Nat) (m : Str × List Int) (v1 : List Int)
    (h : applyMatch v o m = some v1) :
    (m.2.length : Int) - (byteLen m.1 : Int) ≤ (o : Int) ∧ o + byteLen m.1 ≤ v.length := by
  unfold applyMatch at h
  simp only at h
  split at h
  · simp at h
  · rename_i hs
    simp only [Option.map_eq_some'] at h
    obtain ⟨r, hr, _⟩ := h
    have hle := maxInto_some_le _ _ _ hr
    rw [List.length_drop] at hle
    omega

theorem applyMatches_some_inRange : ∀ (ms : Matches) (v : List Int) (o : Nat) (v1 : List Int),
    applyMatches v o ms = some v1 →
    ∀ m ∈ ms, (m.2.length : Int) - (byteLen m.1 : Int) ≤ (o : Int) ∧
      o + byteLen m.1 ≤ v.length
  | [], _, _, _, _ => by simp
  | m :: ms, v, o, v1, h => by
    simp only [applyMatches, Option.bind_eq_some] at h
    obtain ⟨v2, h2, h3⟩ := h
    have hl := applyMatch_length v o m v2 h2
    intro x hx
    rcases List.mem_cons.1 hx with rfl | hx
    · exact applyMatch_some_inRange v o x v2 h2
    · have := applyMatches_some_inRange ms v2 o v1 h3 x hx
      rw [hl] at this
      exact this

theorem scoreLoop_some_inRange (A : Str → Matches) : ∀ (t : Str) (o : Nat) (v v1 : List Int),
    scoreLoop A t o v = some v1 →
    ∀ j, j < t.length → ∀ m ∈ A (t.drop j),
      (m.2.length : Int) - (byteLen m.1 : Int) ≤ ((o + j : Nat) : Int) ∧
      o + j + byteLen m.1 ≤ v.length
  | [], _, _, _, _ => by simp
  | c :: rest, o, v, v1, h => by
    simp only [scoreLoop, Option.bind_eq_some] at h
    obtain ⟨v2, h2, h3⟩ := h
    have hl := applyMatches_length _ v o v2 h2
    intro j hj m hm
    cases j with
    | zero =>
      simpa using applyMatches_some_inRange _ v o v2 h2 m (by simpa using hm)
    | succ j =>
      have := scoreLoop_some_inRange A rest (o + 1) v2 v1 h3 j (by simpa using hj) m
        (by simpa using hm)
      rw [hl] at this
      have e : o + 1 + j = o + (j + 1) := by omega
      rw [e] at this
      exact this

theorem weights_some_inRange (A : Str → Matches) (w : Str) (v : List Int)
    (h : weights A w = some v) : InRange A w := by
  unfold weights at h
  intro o ho m hm
  have hlt : o < (testStr w).length := by simpa [testStr] using List.mem_range.1 ho
  have := scoreLoop_some_inRange A _ 0 _ v h o hlt m hm
  simp only [List.length_replicate, testStr, List.length_cons, List.length_append,
    List.length_nil, Nat.zero_add] at this
  omega

theorem weights_none_of_not_inRange (A : Str → Matches) (w : Str) (h : ¬ InRange A w) :
    weights A w = none := by
  cases hw : weights A w with
  | none => rfl
  | some v => exact absurd (weights_some_inRange A w v hw) h

theorem maxOf_perm (a : Int) (l1 l2 : List Int) (p : l1.Perm l2) : maxOf a l1 = maxOf a l2 :=
  p.foldl_eq' (fun x _ y _ z => by simp only [max_def]; split_ifs <;> omega) a

theorem list_eq_of_getD (l1 l2 : List Int) (hlen : l1.length = l2.length)
    (h : ∀ k, l1.getD k 0 = l2.getD k 0) : l1 = l2 := by
  apply List.ext_getElem?
  intro n
  by_cases hn : n < l1.length
  · have h2 : n < l2.length := by omega
    have := h n
    rw [List.getD_eq_getElem?_getD, List.getD_eq_getElem?_getD, List.getElem?_eq_getElem hn,
      List.getElem?_eq_getElem h2] at this
    rw [List.getElem?_eq_getElem hn, List.getElem?_eq_getElem h2]
    exact congrArg some this
  · rw [List.getElem?_eq_none (by omega), List.getElem?_eq_none (by omega)]

theorem weights_perm (A B : Str → Matches) (w : Str)
    (hperm : ∀ o ∈ List.range (w.length + 2),
      (A ((testStr w).drop o)).Perm (B ((testStr w).drop o))) :
    weights A w = weights B w := by
  have hin : InRange A w ↔ InRange B w := by
    constructor
    · intro h o ho m hm
      exact h o ho m ((hperm o ho).mem_iff.2 hm)
    · intro h o ho m hm
      exact h o ho m ((hperm o ho).mem_iff.1 hm)
  by_cases hA : InRange A w
  · obtain ⟨v, hv⟩ := weights_isSome A w hA
    obtain ⟨v2, hv2⟩ := weights_isSome B w (hin.1 hA)
    rw [hv, hv2]
    congr 1
    apply list_eq_of_getD
    · rw [weights_length A w v hv, weights_length B w v2 hv2]
    · intro k
      rw [weights_getD A w v hv k, weights_getD B w v2 hv2 k]
      apply maxOf_perm
      unfold alignedContribs
      exact List.Perm.flatMap_left _ (fun o ho => (hperm o ho).flatMap_right _)
  · rw [weights_none_of_not_inRange A w hA,
      weights_none_of_not_inRange B w (fun h => hA (hin.2 h))]

theorem startsWith_length : ∀ (key t : Str), startsWith key t = true → key.length ≤ t.length
  | [], _, _ => by simp
  | _ :: _, [], h => by simp [startsWith] at h
  | a :: key, b :: t, h => by
    simp only [startsWith, Bool.and_eq_true] at h
    have := startsWith_length key t h.2
    simp only [List.length_cons]
    omega

/-! ## Lemmas on the first exception word of a text -/

theorem byteLen_eq_zero_iff (s : Str) : byteLen s = 0 ↔ s = [] := by
  constructor
  · intro h
    cases s with
    | nil => rfl
    | cons c rest =>
      have hc := Char.utf8Size_pos c
      simp only [byteLen, List.map_cons, List.sum_cons] at h
      omega
  · rintro rfl
    rfl

theorem hyphenateLoop_first_exception {T : Type} (ops : TrieOps T) (h : Hyphenator T)
    (hyphen t : Str) (post : List Token) (hexc : lookupException h t ≠ []) :
    ∀ (pre : List Token) (outstr : Str),
      (∀ t1, Token.Ident t1 ∈ pre → lookupException h t1 = []) →
      hyphenateLoop ops h hyphen (pre ++ Token.Ident t :: post) outstr =
        (hyphenateLoop ops h hyphen pre outstr).map (fun _ => (lookupException h t, true))
  | [], outstr, _ => by
    have hb : byteLen (lookupException h t) ≠ 0 := fun e => hexc ((byteLen_eq_zero_iff _).1 e)
    simp [hyphenateLoop, hb]
  | Token.Rune c :: pre, outstr, hf => by
    rw [List.cons_append, hyphenateLoop, hyphenateLoop]
    exact hyphenateLoop_first_exception ops h hyphen t post hexc pre _
      (fun t1 h1 => hf t1 (List.mem_cons_of_mem _ h1))
  | Token.Ident t0 :: pre, outstr, hf => by
    have h0 : lookupException h t0 = [] := hf t0 (by simp)
    rw [List.cons_append, hyphenateLoop, hyphenateLoop]
    simp only [h0, byteLen, List.map_nil, List.sum_nil, ne_eq, not_true_eq_false, if_false]
    cases h.patterns with
    | none => rfl
    | some p =>
      simp only
      cases hyphenateWord (ops.AllSubstringsAndValues p) t0 hyphen with
      | none => rfl
      | some w =>
        simp only [Option.some_bind]
        exact hyphenateLoop_first_exception ops h hyphen t post hexc pre _
          (fun t1 h1 => hf t1 (List.mem_cons_of_mem _ h1))

theorem hyphenateLoop_isSome {T : Type} (ops : TrieOps T) (h : Hyphenator T) (hyphen : Str) :
    ∀ (pre : List Token) (outstr : Str),
      (∀ t1, Token.Ident t1 ∈ pre → lookupException h t1 = []) →
      (∀ t1, Token.Ident t1 ∈ pre →
        ∃ p, h.patterns = some p ∧ InRange (ops.AllSubstringsAndValues p) t1) →
      ∃ r, hyphenateLoop ops h hyphen pre outstr = some r
  | [], outstr, _, _ => ⟨_, rfl⟩
  | Token.Rune c :: pre, outstr, hf, hr => by
    rw [hyphenateLoop]
    exact hyphenateLoop_isSome ops h hyphen pre _
      (fun t1 h1 => hf t1 (List.mem_cons_of_mem _ h1))
      (fun t1 h1 => hr t1 (List.mem_cons_of_mem _ h1))
  | Token.Ident t0 :: pre, outstr, hf, hr => by
    have h0 : lookupException h t0 = [] := hf t0 (by simp)
    obtain ⟨p, hp, hin⟩ := hr t0 (by simp)
    obtain ⟨v, hv⟩ := weights_isSome _ t0 hin
    rw [hyphenateLoop]
    simp only [h0, byteLen, List.map_nil, List.sum_nil, ne_eq, not_true_eq_false, if_false, hp]
    rw [hyphenateWord_eq_map, hv]
    simp only [Option.map_some', Option.some_bind]
    exact hyphenateLoop_isSome ops h hyphen pre _
      (fun t1 h1 => hf t1 (List.mem_cons_of_mem _ h1))
      (fun t1 h1 => hr t1 (List.mem_cons_of_mem _ h1))

/-! ## Lemmas on keys of one-byte code points -/

theorem inRange_of_fits (A : Str → Matches) (w : Str) (hk : OneByteKeys A w) (hf : Fits A w) :
    InRange A w := by
  intro o ho m hm
  rw [hk o ho m hm]
  exact hf o ho m hm

theorem alignedContribs_eq_shifted (A : Str → Matches) (w : Str) (hk : OneByteKeys A w)
    (k : Nat) : alignedContribs A w k = shiftedContribs A w k := by
  unfold alignedContribs shiftedContribs
  apply List.flatMap_congr
  intro o ho
  apply List.flatMap_congr
  intro m hm
  unfold matchContribs shiftedMatchContribs
  rw [hk o ho m hm]

/-! ## Theorems -/

/-- C1: for every match function, word `w` of `n` code points and marker,
`hyphenateWord(w, marker)` is the code points of `w` in order, the one at index
`g` followed by the marker iff `g < n - 2` and `v[g+1]` is odd, `v` being the
weight array of the scoring loop (a panic of that loop is the only other
outcome); and `markers`, which is `v` without its first and last entries, has
`n` entries with `markers[g] = v[g+1]`. -/
theorem hyphenateWord_eq_markedWord (A : Str → Matches) (w marker : Str) :
    hyphenateWord A w marker = (weights A w).map (fun v => markedWord w marker v) ∧
    ∀ v, weights A w = some v →
      (trimEnds v).length = w.length ∧ ∀ g, g < w.length → (trimEnds v)[g]? = v[g + 1]? := by
  refine ⟨hyphenateWord_eq_map A w marker, fun v hv => ?_⟩
  have hl := weights_length A w v hv
  exact ⟨by rw [trimEnds_length, hl]; rfl, fun g hg => trimEnds_getElem? v g (by omega)⟩

/-- C1, at the pattern `a1b2c` and the word `abcd`: the weight array is
`[0, 1, 2, 0, 0, 0]`, the markers are `[1, 2, 0, 0]` and the output is `a-bcd`. -/
theorem hyphenateWord_eq_markedWord_witness :
    weights (listTrie.AllSubstringsAndValues [("abc".toList, [0, 1, 2, 0])]) "abcd".toList
      = some [0, 1, 2, 0, 0, 0] ∧
    markedWord "abcd".toList "-".toList [0, 1, 2, 0, 0, 0] = "a-bcd".toList ∧
    ((trimEnds [0, 1, 2, 0, 0, 0]).length = "abcd".toList.length ∧
      ∀ g, g < "abcd".toList.length →
        (trimEnds [0, 1, 2, 0, 0, 0])[g]? = ([0, 1, 2, 0, 0, 0] : List Int)[g + 1]?) :=
  ⟨by decide, by decide,
   (hyphenateWord_eq_markedWord (listTrie.AllSubstringsAndValues [("abc".toList, [0, 1, 2, 0])])
     "abcd".toList "-".toList).2 [0, 1, 2, 0, 0, 0] (by decide)⟩

/-- C2 (counterexample): the store holds the pattern `a1b2c` of the data model
(key `abc`, weights `[0, 1, 2, 0]`, one more than the key has letters) and the
word is `abc`. The description puts `weights[i]` on `v[1+i]`, which gives the
weight 2 at index 3 and 1 at index 2; the code puts it on `v[i]`: the array is
`[0, 1, 2, 0, 0]`, with 0 at index 3 and 2 at index 2. -/
theorem scoring_alignment_counterexample :
    parsePattern "a1b2c".toList ([], [0]) = ("abc".toList, [0, 1, 2, 0]) ∧
    weights (listTrie.AllSubstringsAndValues
        (listTrie.AddPatternString listTrie.NewTrie "a1b2c".toList)) "abc".toList
      = some [0, 1, 2, 0, 0] ∧
    maxOf 0 (claimedContribs (listTrie.AllSubstringsAndValues
        (listTrie.AddPatternString listTrie.NewTrie "a1b2c".toList)) "abc".toList 3) = 2 ∧
    maxOf 0 (claimedContribs (listTrie.AllSubstringsAndValues
        (listTrie.AddPatternString listTrie.NewTrie "a1b2c".toList)) "abc".toList 2) = 1 := by
  decide

/-- C2 (amended): for every word and every store whose returned keys are made
of one-byte code points, whenever the scoring loop of `hyphenateWord` runs to
its end the weight array `v` has `n + 2` entries and `v[k]` is the maximum of
0 and of `weights[i]` over every start offset `o` in `0..n+1`, every match
`(key, weights)` returned for the suffix of `t` at `o` and every index `i` of
`weights` with `o - (len(weights) - len(key)) + i = k`; and the loop runs to
its end whenever every match has `len(weights) - len(key) ≤ o` and
`o + len(key) ≤ n + 2`. -/
theorem weights_eq_alignedMax (A : Str → Matches) (w : Str) (hkeys : OneByteKeys A w) :
    (Fits A w → ∃ v, weights A w = some v) ∧
    (∀ v, weights A w = some v → v.length = w.length + 2 ∧
      ∀ k, k < w.length + 2 → v[k]? = some (maxOf 0 (shiftedContribs A w k))) := by
  refine ⟨fun hf => weights_isSome A w (inRange_of_fits A w hkeys hf),
    fun v hv => ⟨weights_length A w v hv, fun k hk => ?_⟩⟩
  have hl := weights_length A w v hv
  have := weights_getD A w v hv k
  rw [List.getD_eq_getElem?_getD, List.getElem?_eq_getElem (by omega),
    alignedContribs_eq_shifted A w hkeys k] at this
  rw [List.getElem?_eq_getElem (by omega)]
  exact congrArg some this

/-- C2 (amended), at the pattern `a1b2c` and the word `abc`. -/
theorem weights_eq_alignedMax_witness :
    OneByteKeys (listTrie.AllSubstringsAndValues [("abc".toList, [0, 1, 2, 0])]) "abc".toList ∧
    Fits (listTrie.AllSubstringsAndValues [("abc".toList, [0, 1, 2, 0])]) "abc".toList ∧
    (∃ v, weights (listTrie.AllSubstringsAndValues [("abc".toList, [0, 1, 2, 0])]) "abc".toList
      = some v) ∧
    (([0, 1, 2, 0, 0] : List Int).length = "abc".toList.length + 2 ∧
      ∀ k, k < "abc".toList.length + 2 → ([0, 1, 2, 0, 0] : List Int)[k]? =
        some (maxOf 0 (shiftedContribs
          (listTrie.AllSubstringsAndValues [("abc".toList, [0, 1, 2, 0])]) "abc".toList k))) :=
  ⟨by decide, by decide,
   (weights_eq_alignedMax _ _ (by decide)).1 (by decide),
   (weights_eq_alignedMax _ _ (by decide)).2 _ (by decide)⟩

/-- C3 (the code at the failing input): with the exception `ta-ble` loaded,
`Hyphenate("a table b", "-")` returns the stored form `ta-ble` alone, without
the runs before and after the word; the concatenation of all run outputs is
`a ta-ble b`. -/
theorem Hyphenate_exception_drops_runs :
    tableStore.bind (fun h => Hyphenate asciiClass listTrie h "a table b".toList "-".toList)
      = some ("ta-ble".toList, true) ∧
    tableStore.bind (fun h =>
        concatRuns listTrie h "-".toList (scanText asciiClass "a table b".toList))
      = some "a ta-ble b".toList := by
  decide

/-- C4 (the code at the failing input): with the exception `ta-ble` loaded and
the marker `&shy;`, `Hyphenate("table", "&shy;")` returns `ta-ble`, the stored
form with its hyphens, not `ta&shy;ble`. -/
theorem Hyphenate_exception_keeps_hyphens :
    tableStore.bind (fun h => Hyphenate asciiClass listTrie h "table".toList "&shy;".toList)
      = some ("ta-ble".toList, true) ∧
    tableStore.map (fun h => lookupException h "table".toList) = some "ta-ble".toList ∧
    replaceHyphens "ta-ble".toList "&shy;".toList = "ta&shy;ble".toList := by
  decide

/-- C5 (the code at the failing input): with the exception `ta-ble` loaded,
`Hyphenate("table", "-")` and `Hyphenate("table", "&shy;")` are both `ta-ble`,
while the former with its marker replaced is `ta&shy;ble`. -/
theorem Hyphenate_markers_not_substituted :
    tableStore.bind (fun h => Hyphenate asciiClass listTrie h "table".toList "-".toList)
      = some ("ta-ble".toList, true) ∧
    tableStore.bind (fun h => Hyphenate asciiClass listTrie h "table".toList "&shy;".toList)
      ≠ some (replaceHyphens "ta-ble".toList "&shy;".toList, true) := by
  decide

/-- C6 (the code at the failing input): with the exception `ta-ble` loaded and
the marker `&shy;`, removing the marker from the output of
`Hyphenate("table", "&shy;")` leaves `ta-ble`, not the bare word `table`. -/
theorem Hyphenate_exception_no_round_trip :
    scanText asciiClass "table".toList = [Token.Ident "table".toList] ∧
    (tableStore.bind (fun h =>
        Hyphenate asciiClass listTrie h "table".toList "&shy;".toList)).map
      (fun r => removeAll "&shy;".toList r.1 0) = some "ta-ble".toList ∧
    "ta-ble".toList ≠ "table".toList := by
  decide

/-- C7: whenever `hyphenateWord(w, marker)` returns, its output is the code
points of `w` with, after each code point `g`, a gap string that is empty or
one marker (never more than one), and the gaps after the code points `n - 2`
and `n - 1` are empty. -/
theorem hyphenateWord_gaps (A : Str → Matches) (w marker out : Str)
    (h : hyphenateWord A w marker = some out) :
    ∃ gaps : List Str, gaps.length = w.length ∧
      (∀ x ∈ gaps, x = [] ∨ x = marker) ∧
      (∀ g, w.length ≤ g + 2 → gaps.getD g [] = []) ∧
      out = interleave w gaps := by
  rw [hyphenateWord_eq_map, Option.map_eq_some'] at h
  obtain ⟨v, _, rfl⟩ := h
  refine ⟨(List.range' 0 w.length).map (fun g =>
    if g < w.length - 2 ∧ Odd (v.getD (g + 1) 0) then marker else []), by simp, ?_, ?_, ?_⟩
  · intro x hx
    rw [List.mem_map] at hx
    obtain ⟨g, _, rfl⟩ := hx
    by_cases hg : g < w.length - 2 ∧ Odd (v.getD (g + 1) 0)
    · exact Or.inr (if_pos hg)
    · exact Or.inl (if_neg hg)
  · intro g hg
    rw [List.getD_eq_getElem?_getD, List.getElem?_map]
    by_cases hlt : g < w.length
    · rw [List.getElem?_range' _ _ hlt]
      simp only [Option.map_some', Option.getD_some]
      rw [if_neg (by omega)]
    · rw [List.getElem?_eq_none (by simp; omega)]
      rfl
  · exact enumFrom_flatMap_eq_interleave
      (fun g => if g < w.length - 2 ∧ Odd (v.getD (g + 1) 0) then marker else []) w 0

/-- C7, at the pattern `a1b2c` and the word `abcd`: the output is `a-bcd`. -/
theorem hyphenateWord_gaps_witness :
    hyphenateWord (listTrie.AllSubstringsAndValues [("abc".toList, [0, 1, 2, 0])])
      "abcd".toList "-".toList = some "a-bcd".toList ∧
    ∃ gaps : List Str, gaps.length = "abcd".toList.length ∧
      (∀ x ∈ gaps, x = [] ∨ x = "-".toList) ∧
      (∀ g, "abcd".toList.length ≤ g + 2 → gaps.getD g [] = []) ∧
      "a-bcd".toList = interleave "abcd".toList gaps :=
  ⟨by decide, hyphenateWord_gaps (listTrie.AllSubstringsAndValues [("abc".toList, [0, 1, 2, 0])])
    "abcd".toList "-".toList "a-bcd".toList (by decide)⟩

/-- C8 (counterexample): the text `__` has no letter, and with the exception
`_-_` loaded `Hyphenate("__", "-")` returns `_-_`: the scanner takes a run of
underscores for an identifier, which is looked up among the exceptions. And
the text made of a byte order mark and `12` has no letter and no underscore,
and `Hyphenate` returns `12`: the scanner ignores a byte order mark at the
start of its input. -/
theorem Hyphenate_underscore_counterexample :
    (∀ c ∈ "__".toList, asciiClass.isLetter c = false) ∧
    ((LoadPatterns listTrie (Hyphenator.zero _) "en".toList
        (some [LoadTok.Ident "exceptions".toList, LoadTok.String "`_-_`".toList])).bind
      (fun r => Hyphenate asciiClass listTrie r.1 "__".toList "-".toList))
      = some ("_-_".toList, true) ∧
    (∀ c ∈ byteOrderMark :: "12".toList, asciiClass.isLetter c = false ∧ c ≠ '_') ∧
    Hyphenate asciiClass listTrie abcStore (byteOrderMark :: "12".toList) "-".toList
      = some ("12".toList, true) := by
  decide

/-- C8 (amended): for every text without a letter and without an underscore,
and for every store and marker, `Hyphenate(text, marker)` returns the text
with a byte order mark at its very start dropped, and so the text unchanged
when it does not start with a byte order mark. -/
theorem Hyphenate_non_words {T : Type} (cls : CharClass) (ops : TrieOps T) (h : Hyphenator T)
    (text marker : Str) (hc : ∀ c ∈ text, cls.isLetter c = false ∧ c ≠ '_') :
    Hyphenate cls ops h text marker = some (skipBOM text, true) ∧
    (text.head? ≠ some byteOrderMark →
      Hyphenate cls ops h text marker = some (text, true)) := by
  have key : Hyphenate cls ops h text marker = some (skipBOM text, true) := by
    unfold Hyphenate scanText
    rw [scanTokens_no_identStart cls (skipBOM text) (fun c hx => by
      have hm := skipBOM_mem text c hx
      simp [CharClass.identStart, (hc c hm).1, (hc c hm).2]), hyphenateLoop_runes]
    rfl
  exact ⟨key, fun hb => by rw [key, skipBOM_of_head text hb]⟩

/-- C8 (amended), at a text of digits, blanks and punctuation. -/
theorem Hyphenate_non_words_witness :
    (∀ c ∈ "12, 3-4!".toList, asciiClass.isLetter c = false ∧ c ≠ '_') ∧
    "12, 3-4!".toList.head? ≠ some byteOrderMark ∧
    Hyphenate asciiClass listTrie
      { patterns := some [("abc".toList, [0, 1, 2, 0])], exceptions := some (fun _ => none),
        language := "en".toList }
      "12, 3-4!".toList "-".toList = some ("12, 3-4!".toList, true) :=
  ⟨by decide, by decide,
   (Hyphenate_non_words asciiClass listTrie _ "12, 3-4!".toList "-".toList
    (by decide)).2 (by decide)⟩

/-- C9: for every store whose language is the requested one and whose pattern
set is not empty, `LoadPatterns(language, reader)` returns nil and leaves the
patterns, the exceptions and the language as they were, whatever the reader
is (nil or any token sequence). -/
theorem LoadPatterns_same_language_noop {T : Type} (ops : TrieOps T) (h : Hyphenator T)
    (language : Str) (reader : Option (List LoadTok)) (p : T)
    (hl : h.language = language) (hp : h.patterns = some p) (hs : ops.Size p ≠ 0) :
    LoadPatterns ops h language reader = some (h, none) := by
  unfold LoadPatterns
  simp [hl, hp, hs]

/-- C9, at a store with one pattern, for a nil reader and for a reader with
an unknown identifier. -/
theorem LoadPatterns_same_language_noop_witness :
    listTrie.Size [("abc".toList, [0, 1, 2, 0])] ≠ 0 ∧
    LoadPatterns listTrie
      { patterns := some [("abc".toList, [0, 1, 2, 0])], exceptions := some (fun _ => none),
        language := "en".toList } "en".toList none
      = some ({ patterns := some [("abc".toList, [0, 1, 2, 0])],
                exceptions := some (fun _ => none), language := "en".toList }, none) ∧
    LoadPatterns listTrie
      { patterns := some [("abc".toList, [0, 1, 2, 0])], exceptions := some (fun _ => none),
        language := "en".toList } "en".toList (some [LoadTok.Ident "junk".toList])
      = some ({ patterns := some [("abc".toList, [0, 1, 2, 0])],
                exceptions := some (fun _ => none), language := "en".toList }, none) :=
  ⟨by decide,
   LoadPatterns_same_language_noop listTrie _ "en".toList none [("abc".toList, [0, 1, 2, 0])]
     rfl rfl (by decide),
   LoadPatterns_same_language_noop listTrie _ "en".toList (some [LoadTok.Ident "junk".toList])
     [("abc".toList, [0, 1, 2, 0])] rfl rfl (by decide)⟩

/-- C10: for every store and every language different from the store's, when
`LoadPatterns(language, reader)` returns nil (the string tokens of the reader
ending in a one-byte code point, as every terminated literal does), the reader
was not nil, the store's language is the new one, its pattern set is the new
trie with the strings of the input's `patterns` section added in order, and
its exception map holds at every key `k` the last string of the input's
`exceptions` section whose form without hyphens is `k`, and nothing when the
input has none: no pattern or exception from before the call remains. -/
theorem LoadPatterns_new_language {T : Type} (ops : TrieOps T) (h h1 : Hyphenator T)
    (language : Str) (reader : Option (List LoadTok)) (hne : h.language ≠ language)
    (_hq : ∀ toks, reader = some toks →
      ∀ tokstr, LoadTok.String tokstr ∈ toks → endsInOneByte tokstr = true)
    (hok : LoadPatterns ops h language reader = some (h1, none)) :
    ∃ toks, reader = some toks ∧ h1.language = language ∧
      h1.patterns = some ((sectionStrings "patterns".toList toks []).foldl
        ops.AddPatternString ops.NewTrie) ∧
      ∃ m, h1.exceptions = some m ∧
        ∀ k, m k = (sectionStrings "exceptions".toList toks []).reverse.find?
          (fun e => decide (replaceHyphens e [] = k)) := by
  unfold LoadPatterns at hok
  simp only [hne, ne_eq, not_false_eq_true, if_true, Bool.false_eq_true, if_false] at hok
  cases reader with
  | none => simp at hok
  | some toks =>
    simp only [loadPatterns] at hok
    have hl := loadLoop_ok ops toks [] _ h1 ops.NewTrie (fun _ => none) rfl rfl hok
    refine ⟨toks, rfl, hl.1, hl.2.1, _, hl.2.2, fun k => ?_⟩
    rw [foldl_set_apply]
    simp

/-- C10, at a store for `de` with a pattern and an exception for every word,
loaded for `en` with `tableTokens`: afterwards `table` has the exception
`ta-ble` and `zz` has none. -/
theorem LoadPatterns_new_language_witness :
    "de".toList ≠ "en".toList ∧
    (∀ tokstr, LoadTok.String tokstr ∈ tableTokens → endsInOneByte tokstr = true) ∧
    LoadPatterns listTrie
      { patterns := some [("zz".toList, [0, 1, 0])], exceptions := some (fun _ => some ['-']),
        language := "de".toList } "en".toList (some tableTokens)
      = some ({ patterns := some [("ab".toList, [0, 1, 0])],
                exceptions := some (ExcMap.set (fun _ => none) "table".toList "ta-ble".toList),
                language := "en".toList }, none) ∧
    (LoadPatterns listTrie
      { patterns := some [("zz".toList, [0, 1, 0])], exceptions := some (fun _ => some ['-']),
        language := "de".toList } "en".toList (some tableTokens)).map
      (fun r => (lookupException r.1 "table".toList, lookupException r.1 "zz".toList))
      = some ("ta-ble".toList, []) ∧
    ∃ toks, some tableTokens = some toks ∧ "en".toList = "en".toList ∧
      some [("ab".toList, [(0 : Int), 1, 0])] =
        some ((sectionStrings "patterns".toList toks []).foldl
          listTrie.AddPatternString listTrie.NewTrie) ∧
      ∃ m, some (ExcMap.set (fun _ => none) "table".toList "ta-ble".toList) = some m ∧
        ∀ k, m k = (sectionStrings "exceptions".toList toks []).reverse.find?
          (fun e => decide (replaceHyphens e [] = k)) :=
  ⟨by decide,
   fun s hm => by
      simp only [tableTokens, List.mem_cons, LoadTok.String.injEq, reduceCtorEq, false_or,
        List.mem_nil_iff, or_false] at hm
      rcases hm with rfl | rfl <;> decide,
   by rfl, by decide,
   LoadPatterns_new_language listTrie
     { patterns := some [("zz".toList, [0, 1, 0])], exceptions := some (fun _ => some ['-']),
       language := "de".toList }
     { patterns := some [("ab".toList, [0, 1, 0])],
       exceptions := some (ExcMap.set (fun _ => none) "table".toList "ta-ble".toList),
       language := "en".toList }
     "en".toList (some tableTokens) (by decide)
     (fun toks ht s hm => by
      injection ht with ht
      subst ht
      simp only [tableTokens, List.mem_cons, LoadTok.String.injEq, reduceCtorEq, false_or,
        List.mem_nil_iff, or_false] at hm
      rcases hm with rfl | rfl <;> decide)
     (by rfl)⟩

/-- C11: `LoadPatterns` called with a nil reader never panics, and it returns
an error (the nil-reader error) if and only if the store's language differs
from the requested one or its pattern set is nil or of size 0; otherwise it
returns nil. -/
theorem LoadPatterns_nil_reader {T : Type} (ops : TrieOps T) (h : Hyphenator T)
    (language : Str) :
    ∃ h1 e, LoadPatterns ops h language none = some (h1, e) ∧
      (e = none ∨ e = some Error.nilReader) ∧
      (e ≠ none ↔ (h.language ≠ language ∨ h.patterns = none ∨
        ∃ p, h.patterns = some p ∧ ops.Size p = 0)) := by
  unfold LoadPatterns
  by_cases hl : h.language = language
  · cases hp : h.patterns with
    | none => exact ⟨h, some Error.nilReader, by simp [hl, hp], by simp, by simp⟩
    | some p =>
      by_cases hs : ops.Size p = 0
      · exact ⟨h, some Error.nilReader, by simp [hl, hp, hs], by simp, by simp [hs]⟩
      · exact ⟨h, none, by simp [hl, hp, hs], by simp, by simp [hl, hs]⟩
  · exact ⟨{ patterns := none, exceptions := none, language := language },
      some Error.nilReader, by simp [hl], by simp, by simp [hl]⟩

/-- C20: for a store whose language is the requested one and whose pattern set
is nil or of size 0, `LoadPatterns` with a non-nil reader is `loadPatterns` on
a new trie and a new, empty map: the result does not depend on the exceptions
(or patterns) held before, and after a nil return both mappings hold exactly
the strings of the input. -/
theorem LoadPatterns_empty_patterns_reloads {T : Type} (ops : TrieOps T) (h : Hyphenator T)
    (language : Str) (toks : List LoadTok) (hl : h.language = language)
    (hp : ∀ p, h.patterns = some p → ops.Size p = 0) :
    LoadPatterns ops h language (some toks) =
      loadPatterns ops
        { patterns := some ops.NewTrie, exceptions := some (fun _ => none),
          language := language } toks ∧
    ∀ h1, LoadPatterns ops h language (some toks) = some (h1, none) →
      h1.patterns = some ((sectionStrings "patterns".toList toks []).foldl
        ops.AddPatternString ops.NewTrie) ∧
      h1.exceptions = some ((sectionStrings "exceptions".toList toks []).foldl
        (fun (m : ExcMap) str => m.set (replaceHyphens str []) str) (fun _ => none)) := by
  have key : LoadPatterns ops h language (some toks) =
      loadPatterns ops
        { patterns := some ops.NewTrie, exceptions := some (fun _ => none),
          language := language } toks := by
    unfold LoadPatterns
    cases hq : h.patterns with
    | none => simp [hl, hq]
    | some p => simp [hl, hq, hp p hq]
  refine ⟨key, fun h1 hok => ?_⟩
  rw [key] at hok
  exact (loadLoop_ok ops toks [] _ h1 ops.NewTrie (fun _ => none) rfl rfl hok).2

/-- C20, at the store left by loading the exception `ta-ble` alone for `en`
(its pattern set has size 0), reloaded for `en` with the exception
`pre-sent`: the old exception is gone. -/
theorem LoadPatterns_empty_patterns_reloads_witness :
    (∀ p, (some ([] : List (Str × List Int))) = some p → listTrie.Size p = 0) ∧
    (LoadPatterns listTrie
        { patterns := some [],
          exceptions := some (ExcMap.set (fun _ => none) "table".toList "ta-ble".toList),
          language := "en".toList } "en".toList
        (some [LoadTok.Ident "exceptions".toList, LoadTok.String "`pre-sent`".toList])).map
      (fun r => (lookupException r.1 "table".toList, lookupException r.1 "present".toList, r.2))
      = some ([], "pre-sent".toList, none) :=
  ⟨by decide, by
    rw [(LoadPatterns_empty_patterns_reloads listTrie
      { patterns := some [],
        exceptions := some (ExcMap.set (fun _ => none) "table".toList "ta-ble".toList),
        language := "en".toList } "en".toList
      [LoadTok.Ident "exceptions".toList, LoadTok.String "`pre-sent`".toList] rfl
      (by decide)).1]
    decide⟩

/-- C16: for every match function and marker and every word of at most two
code points, `hyphenateWord` returns the word unchanged whenever it returns
(a panic of the scoring loop is the only other outcome), and it returns
whenever the matches are in range. -/
theorem hyphenateWord_short (A : Str → Matches) (w marker : Str) (hlen : w.length ≤ 2) :
    hyphenateWord A w marker = (weights A w).map (fun _ => w) ∧
    (InRange A w → hyphenateWord A w marker = some w) := by
  have key : hyphenateWord A w marker = (weights A w).map (fun _ => w) := by
    rw [hyphenateWord_eq_map]
    congr 1
    funext v
    exact markedWord_short w marker v hlen
  refine ⟨key, fun hr => ?_⟩
  obtain ⟨v, hv⟩ := weights_isSome A w hr
  rw [key, hv]
  rfl

/-- C16, at the pattern `a1b` and the word `ab`: the weight after `a` is the
odd value 1 and the output is `ab`. -/
theorem hyphenateWord_short_witness :
    "ab".toList.length ≤ 2 ∧
    weights (listTrie.AllSubstringsAndValues [("ab".toList, [0, 1, 0])]) "ab".toList
      = some [0, 1, 0, 0] ∧
    InRange (listTrie.AllSubstringsAndValues [("ab".toList, [0, 1, 0])]) "ab".toList ∧
    hyphenateWord (listTrie.AllSubstringsAndValues [("ab".toList, [0, 1, 0])])
      "ab".toList "-".toList = some "ab".toList :=
  ⟨by decide, by decide, by decide,
   (hyphenateWord_short (listTrie.AllSubstringsAndValues [("ab".toList, [0, 1, 0])])
     "ab".toList "-".toList (by decide)).2 (by decide)⟩

/-- C12 (counterexample): a patterns section with the empty string and with
the string `a-?b` loads without an error. -/
theorem loadPatterns_invalid_pattern_counterexample :
    trimQuotes "``".toList = some [] ∧
    trimQuotes "`a-?b`".toList = some "a-?b".toList ∧
    (LoadPatterns listTrie (Hyphenator.zero _) "en".toList
        (some [LoadTok.Ident "patterns".toList, LoadTok.String "``".toList,
               LoadTok.String "`a-?b`".toList])).map (fun r => r.2) = some none := by
  decide

/-- C12 (amended): loading never fails because of a pattern-source string:
for every list of strings, empty or made of any code points, a patterns
section holding them loads into a new store without an error, and each string
is handed to `AddPatternString` as it is. -/
theorem LoadPatterns_any_pattern_strings {T : Type} (ops : TrieOps T) (language : Str)
    (ss : List Str) :
    LoadPatterns ops (Hyphenator.zero T) language
      (some (LoadTok.Ident "patterns".toList ::
        ss.map (fun s => LoadTok.String ("`".toList ++ s ++ "`".toList)))) =
    some ({ patterns := some (ss.foldl ops.AddPatternString ops.NewTrie),
            exceptions := some (fun _ => none), language := language }, none) := by
  unfold LoadPatterns
  by_cases hl : (Hyphenator.zero T).language = language
  · simp only [hl, ne_eq, not_true_eq_false, if_false, Hyphenator.zero, Bool.false_eq_true,
      loadPatterns, loadLoop, true_or, if_true]
    have := loadLoop_pattern_strings ops ss ops.NewTrie (some (fun _ => none)) language
    simp only [Hyphenator.zero] at hl
    rw [← hl] at this ⊢
    exact this
  · simp only [hl, ne_eq, not_false_eq_true, if_true, Bool.false_eq_true, if_false,
      loadPatterns, loadLoop, true_or]
    exact loadLoop_pattern_strings ops ss ops.NewTrie (some (fun _ => none)) language

/-- C13 (counterexample): a token stream without any identifier whose one
string token has a one-byte text (a quote that the input ends) makes
`tokstr[1 : len(tokstr)-1]` panic: the load neither succeeds nor returns an
error, also when an unknown identifier follows. -/
theorem loadPatterns_short_string_counterexample :
    (loadPatterns listTrie (freshStore listTrie "en".toList)
      [LoadTok.String "`".toList]).map (fun r => r.2) = none ∧
    (loadPatterns listTrie (freshStore listTrie "en".toList)
      [LoadTok.String "`".toList, LoadTok.Ident "junk".toList]).map (fun r => r.2) = none := by
  decide

/-- C13 (amended): for every token stream whose string tokens have a text of
at least two bytes, handed to `loadPatterns` on a store with a trie and a map,
the load returns, and it returns an error if and only if the stream contains
an identifier other than `patterns` and `exceptions`. -/
theorem loadPatterns_error_iff {T : Type} (ops : TrieOps T) (h : Hyphenator T)
    (toks : List LoadTok) (p : T) (m : ExcMap) (hp : h.patterns = some p)
    (hm : h.exceptions = some m)
    (hs : ∀ tokstr, LoadTok.String tokstr ∈ toks → 2 ≤ byteLen tokstr) :
    ∃ h1 e, loadPatterns ops h toks = some (h1, e) ∧
      (e ≠ none ↔ ∃ ident, LoadTok.Ident ident ∈ toks ∧
        ident ≠ "patterns".toList ∧ ident ≠ "exceptions".toList) := by
  obtain ⟨hpat, hexc, hlang⟩ := h
  simp only at hp hm
  subst hp hm
  exact loadLoop_error_iff ops toks [] p m hlang hs

/-- C13 (amended), at the tokens `patterns "a1b" exceptions "ta-ble"`. -/
theorem loadPatterns_error_iff_witness :
    (∀ tokstr, LoadTok.String tokstr ∈ tableTokens → 2 ≤ byteLen tokstr) ∧
    ∃ h1 e, loadPatterns listTrie (freshStore listTrie "en".toList) tableTokens = some (h1, e) ∧
      (e ≠ none ↔ ∃ ident, LoadTok.Ident ident ∈ tableTokens ∧
        ident ≠ "patterns".toList ∧ ident ≠ "exceptions".toList) :=
  ⟨fun s hm => by
      simp only [tableTokens, List.mem_cons, LoadTok.String.injEq, reduceCtorEq, false_or,
        List.mem_nil_iff, or_false] at hm
      rcases hm with rfl | rfl <;> decide,
   loadPatterns_error_iff listTrie (freshStore listTrie "en".toList) tableTokens
     listTrie.NewTrie (fun _ => none) rfl rfl (fun s hm => by
      simp only [tableTokens, List.mem_cons, LoadTok.String.injEq, reduceCtorEq, false_or,
        List.mem_nil_iff, or_false] at hm
      rcases hm with rfl | rfl <;> decide)⟩

/-- C15: after `LoadPatterns` has loaded a token stream into the zero value
without an error, the exception map holds at every key `k` the last exception
string of the stream whose form without hyphens is `k`, and nothing when there
is none; so the value stored at a key, without its hyphens, is the key. -/
theorem LoadPatterns_exceptions_last_wins {T : Type} (ops : TrieOps T) (language : Str)
    (toks : List LoadTok) (h1 : Hyphenator T)
    (hok : LoadPatterns ops (Hyphenator.zero T) language (some toks) = some (h1, none)) :
    ∃ m, h1.exceptions = some m ∧
      (∀ k, m k = (sectionStrings "exceptions".toList toks []).reverse.find?
        (fun e => decide (replaceHyphens e [] = k))) ∧
      (∀ k v, m k = some v → replaceHyphens v [] = k) := by
  rw [LoadPatterns_zero] at hok
  have h := (loadLoop_ok ops toks [] _ h1 ops.NewTrie (fun _ => none) rfl rfl hok).2.2
  have hk : ∀ k, ((sectionStrings "exceptions".toList toks []).foldl
      (fun (m : ExcMap) str => m.set (replaceHyphens str []) str) (fun _ => none)) k =
      (sectionStrings "exceptions".toList toks []).reverse.find?
        (fun e => decide (replaceHyphens e [] = k)) := by
    intro k
    rw [foldl_set_apply]
    simp
  refine ⟨_, h, hk, fun k v hv => ?_⟩
  rw [hk k] at hv
  have := List.find?_some hv
  exact of_decide_eq_true this

/-- C15, at the exceptions `ta-ble`, `tab-le` loaded in this order: the key
`table` holds `tab-le`. -/
theorem LoadPatterns_exceptions_last_wins_witness :
    ∃ m : ExcMap, some (ExcMap.set (ExcMap.set (fun _ => none) "table".toList "ta-ble".toList)
        "table".toList "tab-le".toList) = some m ∧
      (∀ k, m k = (sectionStrings "exceptions".toList
          [LoadTok.Ident "exceptions".toList, LoadTok.String "`ta-ble`".toList,
           LoadTok.String "`tab-le`".toList] []).reverse.find?
        (fun e => decide (replaceHyphens e [] = k))) ∧
      (∀ k v, m k = some v → replaceHyphens v [] = k) :=
  LoadPatterns_exceptions_last_wins listTrie "en".toList
    [LoadTok.Ident "exceptions".toList, LoadTok.String "`ta-ble`".toList,
     LoadTok.String "`tab-le`".toList]
    { patterns := some [],
      exceptions := some (ExcMap.set (ExcMap.set (fun _ => none) "table".toList "ta-ble".toList)
        "table".toList "tab-le".toList),
      language := "en".toList } (by rfl)

/-- C17: for every word and marker, if for each start offset the list of
matches that the store returns is replaced by a permutation of itself, the
weight array and the output of `hyphenateWord` are the same (a panic of the
scoring loop included). -/
theorem hyphenateWord_perm (A B : Str → Matches) (w marker : Str)
    (hperm : ∀ o ∈ List.range (w.length + 2),
      (A ((testStr w).drop o)).Perm (B ((testStr w).drop o))) :
    weights A w = weights B w ∧ hyphenateWord A w marker = hyphenateWord B w marker := by
  have hw := weights_perm A B w hperm
  exact ⟨hw, by rw [hyphenateWord_eq_map, hyphenateWord_eq_map, hw]⟩

/-- C17, at the patterns `a1b`, `a2bc` returned in the two orders for the
word `abcd`. -/
theorem hyphenateWord_perm_witness :
    (∀ o ∈ List.range ("abcd".toList.length + 2),
      (listTrie.AllSubstringsAndValues [("ab".toList, [0, 1, 0]), ("abc".toList, [0, 2, 0, 0])]
        ((testStr "abcd".toList).drop o)).Perm
      (listTrie.AllSubstringsAndValues [("abc".toList, [0, 2, 0, 0]), ("ab".toList, [0, 1, 0])]
        ((testStr "abcd".toList).drop o))) ∧
    weights (listTrie.AllSubstringsAndValues
        [("ab".toList, [0, 1, 0]), ("abc".toList, [0, 2, 0, 0])]) "abcd".toList
      = some [0, 2, 0, 0, 0, 0] ∧
    (weights (listTrie.AllSubstringsAndValues
        [("ab".toList, [0, 1, 0]), ("abc".toList, [0, 2, 0, 0])]) "abcd".toList
      = weights (listTrie.AllSubstringsAndValues
        [("abc".toList, [0, 2, 0, 0]), ("ab".toList, [0, 1, 0])]) "abcd".toList ∧
     hyphenateWord (listTrie.AllSubstringsAndValues
        [("ab".toList, [0, 1, 0]), ("abc".toList, [0, 2, 0, 0])]) "abcd".toList "-".toList
      = hyphenateWord (listTrie.AllSubstringsAndValues
        [("abc".toList, [0, 2, 0, 0]), ("ab".toList, [0, 1, 0])]) "abcd".toList "-".toList) :=
  ⟨by decide, by decide,
   hyphenateWord_perm
     (listTrie.AllSubstringsAndValues [("ab".toList, [0, 1, 0]), ("abc".toList, [0, 2, 0, 0])])
     (listTrie.AllSubstringsAndValues [("abc".toList, [0, 2, 0, 0]), ("ab".toList, [0, 1, 0])])
     "abcd".toList "-".toList (by decide)⟩

/-- C18 (counterexample): the store holds the pattern `.a1` (key `.a`, weights
`[0, 0, 1]`, one more than the key has code points) and the word is `ab`.
Every match is an initial segment of its suffix and has a weight vector of
length `len(key)+1`, and the match at start offset 0 makes the slice start
`0 - 1`: the scoring loop panics. -/
theorem scoreLoop_offset_zero_counterexample :
    parsePattern ".a1".toList ([], [0]) = (".a".toList, [0, 0, 1]) ∧
    (∀ o ∈ List.range ("ab".toList.length + 2),
      ∀ m ∈ listTrie.AllSubstringsAndValues [(".a".toList, [0, 0, 1])]
          ((testStr "ab".toList).drop o),
        startsWith m.1 ((testStr "ab".toList).drop o) = true ∧ m.2.length = m.1.length + 1) ∧
    listTrie.AllSubstringsAndValues [(".a".toList, [0, 0, 1])] (testStr "ab".toList)
      = [(".a".toList, [0, 0, 1])] ∧
    applyMatch [0, 0, 0, 0] 0 (".a".toList, [0, 0, 1]) = none ∧
    weights (listTrie.AllSubstringsAndValues [(".a".toList, [0, 0, 1])]) "ab".toList = none ∧
    hyphenateWord (listTrie.AllSubstringsAndValues [(".a".toList, [0, 0, 1])])
      "ab".toList "-".toList = none := by
  decide

/-- C18 (amended): for every word and store in which each match is returned
at a start offset of at least 1, is an initial segment of the suffix at that
offset, is made of one-byte code points and carries a weight vector of length
`len(key)+1`, the scoring loop never slices or indexes out of range: for each
match the start index `o - (len(weights) - len(key))` is not negative and
`o + len(key) ≤ n + 2`, and the loop runs to its end. -/
theorem scoreLoop_in_range (A : Str → Matches) (w : Str)
    (h : ∀ o ∈ List.range (w.length + 2), ∀ m ∈ A ((testStr w).drop o),
      1 ≤ o ∧ startsWith m.1 ((testStr w).drop o) = true ∧ byteLen m.1 = m.1.length ∧
      m.2.length = m.1.length + 1) :
    InRange A w ∧ ∃ v, weights A w = some v := by
  have hin : InRange A w := by
    intro o ho m hm
    obtain ⟨h1, h2, h3, h4⟩ := h o ho m hm
    have hlen := startsWith_length _ _ h2
    have ho2 := List.mem_range.1 ho
    simp only [List.length_drop, testStr, List.length_cons, List.length_append,
      List.length_nil] at hlen
    omega
  exact ⟨hin, weights_isSome A w hin⟩

/-- C18 (amended), at the pattern `a1b2c` and the word `abcd`. -/
theorem scoreLoop_in_range_witness :
    (∀ o ∈ List.range ("abcd".toList.length + 2),
      ∀ m ∈ listTrie.AllSubstringsAndValues [("abc".toList, [0, 1, 2, 0])]
          ((testStr "abcd".toList).drop o),
        1 ≤ o ∧ startsWith m.1 ((testStr "abcd".toList).drop o) = true ∧
        byteLen m.1 = m.1.length ∧ m.2.length = m.1.length + 1) ∧
    (InRange (listTrie.AllSubstringsAndValues [("abc".toList, [0, 1, 2, 0])]) "abcd".toList ∧
     ∃ v, weights (listTrie.AllSubstringsAndValues [("abc".toList, [0, 1, 2, 0])])
       "abcd".toList = some v) :=
  ⟨by decide,
   scoreLoop_in_range (listTrie.AllSubstringsAndValues [("abc".toList, [0, 1, 2, 0])])
     "abcd".toList (by decide)⟩

/-- C19: if the tokens of the text are `pre`, then a word run that is an
exception key with a non-empty stored form `exc`, then `post`, and no word run
of `pre` is such a key, then `Hyphenate(text, marker)` returns `(exc, true)`
as soon as the words of `pre` are hyphenated without a panic, which is so
whenever their matches are in range; the marker and `post` play no part. -/
theorem Hyphenate_first_exception {T : Type} (cls : CharClass) (ops : TrieOps T)
    (h : Hyphenator T) (text marker t : Str) (pre post : List Token)
    (hscan : scanText cls text = pre ++ Token.Ident t :: post)
    (hexc : lookupException h t ≠ [])
    (hfirst : ∀ t1, Token.Ident t1 ∈ pre → lookupException h t1 = []) :
    Hyphenate cls ops h text marker =
      (hyphenateLoop ops h marker pre []).map (fun _ => (lookupException h t, true)) ∧
    ((∀ t1, Token.Ident t1 ∈ pre →
        ∃ p, h.patterns = some p ∧ InRange (ops.AllSubstringsAndValues p) t1) →
      Hyphenate cls ops h text marker = some (lookupException h t, true)) := by
  have key : Hyphenate cls ops h text marker =
      (hyphenateLoop ops h marker pre []).map (fun _ => (lookupException h t, true)) := by
    unfold Hyphenate
    rw [hscan]
    exact hyphenateLoop_first_exception ops h marker t post hexc pre [] hfirst
  refine ⟨key, fun hr => ?_⟩
  obtain ⟨r, hr2⟩ := hyphenateLoop_isSome ops h marker pre [] hfirst hr
  rw [key, hr2]
  rfl

/-- C19, at the text `abcd table x` with the exception `ta-ble` loaded and the
marker `&shy;`: the result is `ta-ble`. -/
theorem Hyphenate_first_exception_witness :
    scanText asciiClass "abcd table x".toList =
      [Token.Ident "abcd".toList, Token.Rune ' '] ++ Token.Ident "table".toList ::
        [Token.Rune ' ', Token.Ident "x".toList] ∧
    lookupException abcStore "table".toList = "ta-ble".toList ∧
    Hyphenate asciiClass listTrie abcStore "abcd table x".toList "&shy;".toList =
      some (lookupException abcStore "table".toList, true) :=
  ⟨by decide, by decide,
   (Hyphenate_first_exception asciiClass listTrie abcStore "abcd table x".toList "&shy;".toList
      "table".toList [Token.Ident "abcd".toList, Token.Rune ' ']
      [Token.Rune ' ', Token.Ident "x".toList] (by decide) (by decide)
      (fun t1 h1 => by
        simp only [List.mem_cons, Token.Ident.injEq, reduceCtorEq, List.mem_nil_iff,
          or_false] at h1
        subst h1
        decide)).2
      (fun t1 h1 => by
        simp only [List.mem_cons, Token.Ident.injEq, reduceCtorEq, List.mem_nil_iff,
          or_false] at h1
        subst h1
        exact ⟨[("abc".toList, [0, 1, 2, 0])], rfl, by decide⟩)⟩

end GoHyphenator
